import Mathlib

/-!
Verification development for the nx-scaffolder repository.

This file gives a shallow embedding, in Lean 4, of the parts of the Go
source that the specification's claims talk about:

* `parseInjectInstructions` / `extractRepoName`  (src/cmd/create.go)
* `updateImportedPackageJSON`                    (src/internal/utils/fetch-github-repo.go)
* `replaceTemplateName` / `updateOptionsMap` / `updateTargetConfigs`
                                                 (src/internal/utils/fetch-github-repo.go)
* `importExistingRepo`                           (src/internal/utils/injection.go)
* `extractFile`                                  (src/internal/utils/fetch-github-repo.go)

Strings are modelled as `List Char` where character-level reasoning is
needed; Go maps (`map[string]interface{}`) are modelled as association
lists; the filesystem and the external git/npx processes are modelled
explicitly (paths as component lists, process outcomes as boolean
environments).
-/

namespace NxScaffolder

/-! ## Basic string helpers (Go `strings` package operations) -/

/-- The character set trimmed by Go's `strings.TrimSpace` (ASCII part of
`unicode.IsSpace`; the Go function also trims a handful of non-ASCII
Unicode spaces, which never occur in the claims considered here). -/
def isSpaceGo (c : Char) : Bool :=
  c = ' ' || c = '\t' || c = '\n' || c = '\x0b' || c = '\x0c' || c = '\r'

/-- Go `strings.TrimSpace`: drop leading and trailing whitespace. -/
def trimGo (s : List Char) : List Char :=
  ((s.dropWhile isSpaceGo).reverse.dropWhile isSpaceGo).reverse

/-- Go `strings.Split(s, "|")`: split on the pipe character.  Splitting the
empty string yields one empty segment, as in Go. -/
def splitPipe : List Char → List (List Char)
  | [] => [[]]
  | c :: t =>
    match splitPipe t with
    | [] => if c = '|' then [[], []] else [[c]]
    | h :: r => if c = '|' then [] :: h :: r else (c :: h) :: r

/-! ## The instruction data model (src/internal/utils/injection.go) -/

/-- Mirror of Go `utils.InjectionInstruction`.  The Go field `Type` is
spelled `typ` because `type` is a Lean keyword. -/
structure InjectionInstruction where
  typ : String
  repoURL : String
  appName : String
  branch : String
deriving DecidableEq, Repr

/-- An instruction as built by the `{create-new}` branches of
`parseInjectInstructions` (only `Type` and `AppName` are set). -/
def mkCreate (name : String) : InjectionInstruction :=
  ⟨"create-new", "", name, ""⟩

/-- An instruction as built by the `http` branch of
`parseInjectInstructions`. -/
def mkImport (url name : String) : InjectionInstruction :=
  ⟨"import-repo", url, name, ""⟩

/-! ## Decimal rendering of naturals (Go `fmt.Sprintf("%d", n)`) -/

/-- Fuel-driven digit expansion; the fuel is always sufficient at the call
site in `natStr`. -/
def natToCharsAux : Nat → Nat → List Char
  | 0, _ => []
  | fuel + 1, n =>
    if n < 10 then [Nat.digitChar n]
    else natToCharsAux fuel (n / 10) ++ [Nat.digitChar (n % 10)]

/-- Decimal rendering of a natural number. -/
def natStr (n : Nat) : String := ⟨natToCharsAux (n + 1) n⟩

/-! ## The injection-instruction parser (src/cmd/create.go) -/

/-- The characters of the literal `"{create-new"`, the fixed opening of the
counted placeholder regex `^{create-new([+*])(\d+)}$`. -/
def createNewOpen : List Char :=
  ['{', 'c', 'r', 'e', 'a', 't', 'e', '-', 'n', 'e', 'w']

/-- The characters of the literal segment `"{create-new}"`. -/
def createNewLit : List Char := createNewOpen ++ ['}']

/-- The characters of the literal `"http"`. -/
def httpLit : List Char := ['h', 't', 't', 'p']

/-- Decimal value of a digit string (helper for `atoiNat`). -/
def digitsVal (ds : List Char) : Nat :=
  ds.foldl (fun a c => a * 10 + (c.toNat - 48)) 0

/-- The largest value of Go's 64-bit `int`; `strconv.Atoi` returns a
range error for any larger value. -/
def maxInt64 : Nat := 2 ^ 63 - 1

/-- Go `strconv.Atoi` on a `\d+` match: the decimal value when it fits in
a 64-bit `int`, `none` (a range error) otherwise.  Leading zeros are
accepted; the range check is on the value, as in Go's `ParseInt`. -/
def atoiNat (ds : List Char) : Option Nat :=
  if digitsVal ds ≤ maxInt64 then some (digitsVal ds) else none

/-- The message of the range error `strconv.Atoi` produces on an
oversized digit string. -/
def atoiRangeErrMsg (ds : List Char) : String :=
  "strconv.Atoi: parsing \"" ++ String.mk ds ++ "\": value out of range"

/-- Matching of the anchored regex `^{create-new([+*])(\d+)}$` from
`parseInjectInstructions`: returns the operator character and the digit
capture group as text (Go's `matches[1]`, `matches[2]`); the numeric
conversion is a separate `strconv.Atoi` step. -/
def matchCounted (s : List Char) : Option (Char × List Char) :=
  if createNewOpen <+: s then
    match s.drop 11 with
    | op :: rest =>
      if op = '+' ∨ op = '*' then
        let digits := rest.takeWhile fun c => c.isDigit
        if digits ≠ [] ∧ rest.drop digits.length = ['}'] then
          some (op, digits)
        else none
      else none
    | [] => none
  else none

/-- The number of iterations Go's `for range numApps` loop performs:
`count` for `*`; for `+` the code computes `count + 1` in 64-bit signed
arithmetic, which at `count = maxInt64` wraps to a negative number, and
`for range` over a non-positive `int` runs zero iterations. -/
def numAppsIter (op : Char) (count : Nat) : Nat :=
  if op = '+' then (if count = maxInt64 then 0 else count + 1) else count

/-- The characters of the literal `"github.com/"` that anchors the repo
extraction regex. -/
def githubComLit : List Char :=
  ['g', 'i', 't', 'h', 'u', 'b', '.', 'c', 'o', 'm', '/']

/-- One position of the unanchored search for the regex
`github\.com/[^/]+/([^/\.]+)` in `extractRepoName`: attempt a match
starting at the head of `s` and return the capture group. -/
def extractAt (s : List Char) : Option (List Char) :=
  if githubComLit <+: s then
    let rest := s.drop 11
    let owner := rest.takeWhile fun c => c != '/'
    if owner = [] then none
    else
      match rest.drop owner.length with
      | c :: rest2 =>
        if c = '/' then
          let repo := rest2.takeWhile fun c => c != '/' && c != '.'
          if repo = [] then none else some repo
        else none
      | [] => none
  else none

/-- Leftmost-match search: Go's `regexp.FindStringSubmatch` returns the
match starting at the earliest position. -/
def scanRepo : List Char → Option (List Char)
  | [] => none
  | c :: t =>
    match extractAt (c :: t) with
    | some r => some r
    | none => scanRepo t

/-- Mirror of Go `extractRepoName` (src/cmd/create.go): the capture group
of the first match of `github\.com/[^/]+/([^/\.]+)`, or the empty string
when there is no match. -/
def extractRepoName (s : List Char) : List Char := (scanRepo s).getD []

/-- The expansion loop body of the counted placeholder: append `n` fresh
`create-new` instructions, each named `app-<len+1>` from the running
length, exactly as the Go loop
`instructions = append(instructions, ... len(instructions)+1)`. -/
def appendCreates (acc : List InjectionInstruction) : Nat → List InjectionInstruction
  | 0 => acc
  | k + 1 =>
    appendCreates (acc ++ [mkCreate ("app-" ++ natStr (acc.length + 1))]) k

/-- The segment loop of `parseInjectInstructions`: `i` is the 0-based index
of the current segment among the pipe-delimited parts, `acc` the
instructions produced so far.  An error returns no instruction list,
mirroring Go's `return nil, fmt.Errorf(...)`. -/
def parseParts (i : Nat) : List (List Char) → List InjectionInstruction →
    Except String (List InjectionInstruction)
  | [], acc => .ok acc
  | p :: rest, acc =>
    let part := trimGo p
    if part = createNewLit then
      parseParts (i + 1) rest (acc ++ [mkCreate ("app-" ++ natStr (i + 1))])
    else
      match matchCounted part with
      | some (op, digits) =>
        match atoiNat digits with
        | none =>
          .error ("invalid number in expression " ++ String.mk part ++ ": " ++
            atoiRangeErrMsg digits)
        | some count =>
          parseParts (i + 1) rest (appendCreates acc (numAppsIter op count))
      | none =>
        if httpLit <+: part then
          let rn := extractRepoName part
          let appName :=
            if rn = [] then "imported-app-" ++ natStr (i + 1) else String.mk rn
          parseParts (i + 1) rest (acc ++ [mkImport (String.mk part) appName])
        else
          .error ("invalid injection instruction: " ++ String.mk part)

/-- Mirror of Go `parseInjectInstructions` (src/cmd/create.go). -/
def parseInjectInstructions (s : String) : Except String (List InjectionInstruction) :=
  parseParts 0 (splitPipe s.data) []

/-- Decidable check that a trimmed segment is accepted by the parser: one
of the three valid forms, with a counted segment's count also in range
for `strconv.Atoi` (used to state the claims' hypotheses). -/
def segmentValid (seg : List Char) : Bool :=
  let part := trimGo seg
  part == createNewLit ||
    (match matchCounted part with
     | some (_, digits) => (atoiNat digits).isSome
     | none => false) ||
    httpLit.isPrefixOf part

/-- Number of instructions a valid segment contributes: 1 for
`{create-new}`, `numAppsIter` for a counted segment (N for `*N`, N+1 for
`+N` except 0 at `+maxInt64`), 1 for an `http...` segment (0 in the
impossible invalid cases). -/
def segWeight (seg : List Char) : Nat :=
  let part := trimGo seg
  if part = createNewLit then 1
  else
    match matchCounted part with
    | some (op, digits) =>
      match atoiNat digits with
      | some count => numAppsIter op count
      | none => 0
    | none => if httpLit <+: part then 1 else 0

/-- The parse error a single segment triggers, if any: a counted segment
whose count exceeds `maxInt64` gives the Atoi-wrapping `invalid number in
expression` error; a segment matching no valid form gives
`invalid injection instruction`. -/
def segmentError (seg : List Char) : Option String :=
  let part := trimGo seg
  if part = createNewLit then none
  else
    match matchCounted part with
    | some (_, digits) =>
      if (atoiNat digits).isSome then none
      else some ("invalid number in expression " ++ String.mk part ++ ": " ++
        atoiRangeErrMsg digits)
    | none =>
      if httpLit <+: part then none
      else some ("invalid injection instruction: " ++ String.mk part)

/-- The block of instructions produced by expanding one counted placeholder
when `base` instructions were already produced: names continue the running
count. -/
def createRun (base k : Nat) : List InjectionInstruction :=
  (List.range k).map fun j => mkCreate ("app-" ++ natStr (base + j + 1))

theorem createRun_succ (base k : Nat) :
    createRun base (k + 1) =
      mkCreate ("app-" ++ natStr (base + 1)) :: createRun (base + 1) k := by
  unfold createRun
  rw [List.range_succ_eq_map, List.map_cons, List.map_map]
  refine congrArg₂ (· :: ·) (by simp) ?_
  refine List.map_congr_left fun j _ => ?_
  simp only [Function.comp_apply, Nat.succ_eq_add_one]
  refine congrArg (fun m => mkCreate ("app-" ++ natStr m)) (by omega)

theorem appendCreates_eq : ∀ (k : Nat) (acc : List InjectionInstruction),
    appendCreates acc k = acc ++ createRun acc.length k
  | 0, acc => by simp [appendCreates, createRun]
  | k + 1, acc => by
    rw [appendCreates, appendCreates_eq k, createRun_succ]
    simp

theorem appendCreates_length (k : Nat) (acc : List InjectionInstruction) :
    (appendCreates acc k).length = acc.length + k := by
  simp [appendCreates_eq, createRun]

theorem createRun_length (base k : Nat) : (createRun base k).length = k := by
  simp [createRun]

/-- A segment matched by the counted regex is not the plain literal. -/
theorem ne_createNewLit_of_counted {part : List Char} {v : Char × List Char}
    (hm : matchCounted part = some v) : part ≠ createNewLit := by
  intro he
  have h0 : matchCounted createNewLit = none := by decide
  rw [he, h0] at hm
  cases hm

/-- A segment matched by the counted regex starts with `{create-new`. -/
theorem matchCounted_open {part : List Char} {v : Char × List Char}
    (hm : matchCounted part = some v) : createNewOpen <+: part := by
  rw [matchCounted] at hm
  by_cases h : createNewOpen <+: part
  · exact h
  · rw [if_neg h] at hm
    cases hm

/-- A segment matched by the counted regex does not start with `http`. -/
theorem not_http_of_counted {part : List Char} {v : Char × List Char}
    (hm : matchCounted part = some v) : ¬ httpLit <+: part := by
  intro hh
  have hopen := matchCounted_open hm
  cases hcase : part with
  | nil =>
    rw [hcase, List.prefix_nil] at hh
    cases hh
  | cons c t =>
    rw [hcase] at hh hopen
    have h1 : 'h' = c := (List.cons_prefix_cons.mp hh).1
    have h2 : '{' = c := (List.cons_prefix_cons.mp hopen).1
    rw [← h1] at h2
    cases h2

/-- Reduction of the parser on a segment taken by the counted branch. -/
theorem parseParts_counted_eq (i : Nat) (rest : List (List Char))
    (p : List Char) (acc : List InjectionInstruction) (op : Char)
    (digits : List Char) (hne : trimGo p ≠ createNewLit)
    (hm : matchCounted (trimGo p) = some (op, digits)) :
    parseParts i (p :: rest) acc =
      match atoiNat digits with
      | none =>
        .error ("invalid number in expression " ++ String.mk (trimGo p) ++
          ": " ++ atoiRangeErrMsg digits)
      | some count =>
        parseParts (i + 1) rest (appendCreates acc (numAppsIter op count)) := by
  simp only [parseParts]
  rw [if_neg hne, hm]

/-- The parser only ever appends to its accumulator. -/
theorem parseParts_mono : ∀ (parts : List (List Char)) (i : Nat)
    (acc l : List InjectionInstruction),
    parseParts i parts acc = .ok l → ∃ t, l = acc ++ t
  | [], _, acc, l, h => by
    refine ⟨[], ?_⟩
    simp only [parseParts] at h
    cases h
    simp
  | p :: rest, i, acc, l, h => by
    by_cases hp : trimGo p = createNewLit
    · simp only [parseParts] at h
      rw [if_pos hp] at h
      obtain ⟨t, ht⟩ := parseParts_mono rest (i + 1) _ l h
      exact ⟨_, by simpa using ht⟩
    · cases hm : matchCounted (trimGo p) with
      | some v =>
        obtain ⟨op, digits⟩ := v
        rw [parseParts_counted_eq i rest p acc op digits hp hm] at h
        cases ha : atoiNat digits with
        | none =>
          rw [ha] at h
          simp at h
        | some count =>
          rw [ha] at h
          obtain ⟨t, ht⟩ := parseParts_mono rest (i + 1) _ l h
          rw [appendCreates_eq] at ht
          exact ⟨_, by simpa using ht⟩
      | none =>
        simp only [parseParts] at h
        rw [if_neg hp, hm] at h
        by_cases hh : httpLit <+: trimGo p
        · rw [if_pos hh] at h
          obtain ⟨t, ht⟩ := parseParts_mono rest (i + 1) _ l h
          exact ⟨_, by simpa using ht⟩
        · rw [if_neg hh] at h
          cases h

/-- A segment accepted by `segmentValid` is a plain literal, an in-range
counted placeholder, or an `http` segment (the three parser branches that
do not error). -/
theorem segmentValid_cases {seg : List Char} (h : segmentValid seg = true) :
    trimGo seg = createNewLit ∨
      (∃ op digits count, matchCounted (trimGo seg) = some (op, digits) ∧
        atoiNat digits = some count) ∨
      (matchCounted (trimGo seg) = none ∧ httpLit <+: trimGo seg) := by
  simp only [segmentValid, Bool.or_eq_true, beq_iff_eq,
    List.isPrefixOf_iff_prefix] at h
  rcases h with (h | h) | h
  · exact Or.inl h
  · cases hm : matchCounted (trimGo seg) with
    | some v =>
      obtain ⟨op, digits⟩ := v
      rw [hm] at h
      have h' : (atoiNat digits).isSome = true := h
      obtain ⟨count, hc⟩ := Option.isSome_iff_exists.mp h'
      exact Or.inr (Or.inl ⟨op, digits, count, rfl, hc⟩)
    | none =>
      rw [hm] at h
      have h' : false = true := h
      cases h'
  · cases hm : matchCounted (trimGo seg) with
    | some v => exact absurd h (not_http_of_counted hm)
    | none => exact Or.inr (Or.inr ⟨rfl, h⟩)

theorem parseParts_count : ∀ (parts : List (List Char)) (i : Nat)
    (acc : List InjectionInstruction),
    (∀ seg ∈ parts, segmentValid seg = true) →
    ∃ l, parseParts i parts acc = .ok l ∧
      l.length = acc.length + (parts.map segWeight).sum
  | [], i, acc, _ => ⟨acc, by simp [parseParts]⟩
  | p :: rest, i, acc, hv => by
    have hrest : ∀ seg ∈ rest, segmentValid seg = true :=
      fun seg hs => hv seg (List.mem_cons_of_mem _ hs)
    have hp' := hv p (List.mem_cons_self _ _)
    rcases segmentValid_cases hp' with hc | ⟨op, digits, count, hm, ha⟩ | ⟨hm, hh⟩
    · simp only [parseParts]
      rw [if_pos hc]
      obtain ⟨l, hok, hlen⟩ := parseParts_count rest (i + 1) _ hrest
      refine ⟨l, hok, ?_⟩
      rw [hlen]
      have hw : segWeight p = 1 := by rw [segWeight, if_pos hc]
      simp [hw]
      omega
    · have hne := ne_createNewLit_of_counted hm
      rw [parseParts_counted_eq i rest p acc op digits hne hm, ha]
      obtain ⟨l, hok, hlen⟩ := parseParts_count rest (i + 1) _ hrest
      refine ⟨l, hok, ?_⟩
      rw [hlen, appendCreates_length]
      have hw : segWeight p = numAppsIter op count := by
        rw [segWeight, if_neg hne, hm]
        simp only [ha]
      simp [hw]
      omega
    · have hne : trimGo p ≠ createNewLit := by
        intro he
        rw [he] at hh
        exact absurd hh (by decide)
      simp only [parseParts]
      rw [if_neg hne, hm, if_pos hh]
      obtain ⟨l, hok, hlen⟩ := parseParts_count rest (i + 1) _ hrest
      refine ⟨l, hok, ?_⟩
      rw [hlen]
      have hw : segWeight p = 1 := by
        rw [segWeight, if_neg hne, hm, if_pos hh]
      simp [hw]
      omega

/-- Counterexample to claim C1: a counted segment whose digit string is a
valid `\d+` match can still fail the parse — `strconv.Atoi` range-errors
for counts above `maxInt64`, so `{create-new*9999999999999999999}` yields
the `invalid number in expression` error, not a success; and at
`{create-new+9223372036854775807}` the `count + 1` computation wraps in
64-bit arithmetic and the segment contributes zero instructions instead
of N+1. -/
theorem parse_overflow_counterexample :
    parseInjectInstructions "{create-new*9999999999999999999}" =
      .error ("invalid number in expression {create-new*9999999999999999999}: " ++
        "strconv.Atoi: parsing \"9999999999999999999\": value out of range") ∧
    parseInjectInstructions "{create-new+9223372036854775807}" = .ok [] :=
  ⟨rfl, rfl⟩

/-- Claim C1 (amended): for every instruction string in which every
trimmed segment matches one of the valid forms AND every counted
segment's count fits in a 64-bit `int` (otherwise `strconv.Atoi`
range-errors and the parse fails), the parse succeeds and the length of
the instruction list is the sum over segments of 1 for `{create-new}`,
N for `{create-new*N}`, N+1 for `{create-new+N}` — except that
`{create-new+9223372036854775807}` contributes 0 by int64 wraparound —
and 1 for an `http...` segment. -/
theorem parse_count_of_valid_amended (s : String)
    (h : ∀ seg ∈ splitPipe s.data, segmentValid seg = true) :
    ∃ l, parseInjectInstructions s = .ok l ∧
      l.length = ((splitPipe s.data).map segWeight).sum := by
  obtain ⟨l, hok, hlen⟩ := parseParts_count (splitPipe s.data) 0 [] h
  exact ⟨l, hok, by simpa using hlen⟩

/-- Witness for the amended C1 at a concrete input mixing all four
segment forms: 1 + 2 + 2 + 1 = 6 instructions. -/
theorem parse_count_of_valid_amended_witness :
    ∃ l, parseInjectInstructions
        "{create-new}|{create-new*2}|{create-new+1}|https://github.com/a/b" =
      .ok l ∧ l.length = 6 := by
  obtain ⟨l, hok, hlen⟩ := parse_count_of_valid_amended
    "{create-new}|{create-new*2}|{create-new+1}|https://github.com/a/b"
    (by decide)
  exact ⟨l, hok, by rw [hlen]; rfl⟩

/-- Counterexample to claim C2: in `"{create-new*2}|{create-new}"` the
plain `{create-new}` segment produces the third instruction of the run,
but the code names it `app-2` (its 1-based segment position), not `app-3`
(its 1-based position in the instruction list) as the claim requires. -/
theorem plain_name_counterexample :
    parseInjectInstructions "{create-new*2}|{create-new}" =
      .ok [mkCreate "app-1", mkCreate "app-2", mkCreate "app-2"] ∧
    (mkCreate "app-2").appName ≠ "app-3" :=
  ⟨rfl, by decide⟩

/-- Claim C2 (amended): an instruction produced from a plain
`{create-new}` segment is named `app-<s>` where `s` is the segment's
1-based position among the pipe-delimited segments (which equals its
position in the instruction list only when every earlier segment
contributes exactly one instruction). -/
theorem plain_name_by_segment_position (i : Nat) (parts : List (List Char))
    (acc : List InjectionInstruction) (seg : List Char)
    (l : List InjectionInstruction)
    (hseg : trimGo seg = createNewLit)
    (hok : parseParts i (seg :: parts) acc = .ok l) :
    l[acc.length]? = some (mkCreate ("app-" ++ natStr (i + 1))) := by
  simp only [parseParts] at hok
  rw [if_pos hseg] at hok
  obtain ⟨t, ht⟩ := parseParts_mono _ _ _ _ hok
  rw [ht, List.append_assoc]
  rw [List.getElem?_append_right (Nat.le_refl _)]
  simp

/-- Witness for the amended C2: in `"{create-new*2}|{create-new}"` the
plain segment sits at 0-based index 1 and its instruction (list position
2) is named `app-2`. -/
theorem plain_name_by_segment_position_witness :
    (parseParts 1 ["{create-new}".data] [mkCreate "app-1", mkCreate "app-2"] =
      .ok [mkCreate "app-1", mkCreate "app-2", mkCreate "app-2"]) ∧
    ([mkCreate "app-1", mkCreate "app-2", mkCreate "app-2"] :
        List InjectionInstruction)[2]? = some (mkCreate ("app-" ++ natStr 2)) := by
  refine ⟨rfl, ?_⟩
  exact plain_name_by_segment_position 1 [] [mkCreate "app-1", mkCreate "app-2"]
    "{create-new}".data _ (by decide) rfl

/-- Claim C3: each instruction expanded from a counted placeholder
`{create-new*N}` or `{create-new+N}` is named `app-<k>` where `k` is one
plus the running total of instructions already produced across the whole
parse before it (the bound `numAppsIter` is the number of instructions
the Go loop actually expands: N for `*N`, N+1 for `+N`, 0 at the int64
wraparound `+maxInt64`). -/
theorem counted_names_running_total (i : Nat) (parts : List (List Char))
    (acc : List InjectionInstruction) (seg : List Char) (op : Char)
    (digits : List Char) (n : Nat) (l : List InjectionInstruction)
    (hm : matchCounted (trimGo seg) = some (op, digits))
    (ha : atoiNat digits = some n)
    (hok : parseParts i (seg :: parts) acc = .ok l) :
    ∀ j < numAppsIter op n,
      l[acc.length + j]? = some (mkCreate ("app-" ++ natStr (acc.length + j + 1))) := by
  intro j hj
  have hne := ne_createNewLit_of_counted hm
  rw [parseParts_counted_eq i parts seg acc op digits hne hm, ha] at hok
  obtain ⟨t, ht⟩ := parseParts_mono _ _ _ _ hok
  rw [appendCreates_eq] at ht
  rw [ht, List.append_assoc]
  rw [List.getElem?_append_right (Nat.le_add_right _ _)]
  rw [Nat.add_sub_cancel_left]
  rw [List.getElem?_append_left (by rw [createRun_length]; exact hj)]
  simp [createRun, List.getElem?_range hj]

/-- Witness for C3: `{create-new*3}` alone yields `app-1`, `app-2`,
`app-3`; instantiated at the third expanded instruction. -/
theorem counted_names_running_total_witness :
    (parseParts 0 ["{create-new*3}".data] [] =
      .ok [mkCreate "app-1", mkCreate "app-2", mkCreate "app-3"]) ∧
    ([mkCreate "app-1", mkCreate "app-2", mkCreate "app-3"] :
        List InjectionInstruction)[2]? = some (mkCreate ("app-" ++ natStr 3)) := by
  refine ⟨rfl, ?_⟩
  have h := counted_names_running_total 0 [] [] "{create-new*3}".data '*'
    "3".data 3 [mkCreate "app-1", mkCreate "app-2", mkCreate "app-3"]
    (by decide) (by decide) rfl 2 (by decide)
  simpa using h

/-- The parser fails with the error of the first offending segment: the
Atoi-wrapping `invalid number in expression` error for an over-range
count, `invalid injection instruction` for a form-invalid segment; no
instruction list is returned in either case. -/
theorem parseParts_error : ∀ (parts : List (List Char)) (i : Nat)
    (acc : List InjectionInstruction) (msg : String),
    parts.findSome? segmentError = some msg →
    parseParts i parts acc = .error msg
  | [], _, _, msg, h => by simp at h
  | p :: rest, i, acc, msg, h => by
    cases hse : segmentError p with
    | none =>
      rw [List.findSome?_cons_of_isNone _ (by rw [hse]; rfl)] at h
      by_cases hp : trimGo p = createNewLit
      · simp only [parseParts]
        rw [if_pos hp]
        exact parseParts_error rest (i + 1) _ msg h
      · cases hm : matchCounted (trimGo p) with
        | some v =>
          obtain ⟨op, digits⟩ := v
          rw [segmentError, if_neg hp] at hse
          simp only [hm] at hse
          by_cases ha : (atoiNat digits).isSome = true
          · obtain ⟨count, hc⟩ := Option.isSome_iff_exists.mp ha
            rw [parseParts_counted_eq i rest p acc op digits hp hm, hc]
            exact parseParts_error rest (i + 1) _ msg h
          · rw [if_neg ha] at hse
            cases hse
        | none =>
          rw [segmentError, if_neg hp] at hse
          simp only [hm] at hse
          by_cases hh : httpLit <+: trimGo p
          · simp only [parseParts]
            rw [if_neg hp, hm, if_pos hh]
            exact parseParts_error rest (i + 1) _ msg h
          · rw [if_neg hh] at hse
            cases hse
    | some m =>
      rw [List.findSome?_cons_of_isSome _ (by rw [hse]; rfl), hse] at h
      cases h
      by_cases hp : trimGo p = createNewLit
      · rw [segmentError, if_pos hp] at hse
        cases hse
      · rw [segmentError, if_neg hp] at hse
        cases hm : matchCounted (trimGo p) with
        | some v =>
          obtain ⟨op, digits⟩ := v
          simp only [hm] at hse
          by_cases ha : (atoiNat digits).isSome = true
          · rw [if_pos ha] at hse
            cases hse
          · rw [if_neg ha] at hse
            have hnone : atoiNat digits = none := by
              cases hq : atoiNat digits with
              | none => rfl
              | some c =>
                rw [hq] at ha
                simp at ha
            have hmsg := Option.some.inj hse
            rw [parseParts_counted_eq i rest p acc op digits hp hm, hnone,
              ← hmsg]
        | none =>
          simp only [hm] at hse
          by_cases hh : httpLit <+: trimGo p
          · rw [if_pos hh] at hse
            cases hse
          · rw [if_neg hh] at hse
            have hmsg := Option.some.inj hse
            simp only [parseParts]
            rw [if_neg hp, hm, if_neg hh, ← hmsg]

/-- Counterexample to claim C5: in
`{create-new*9999999999999999999}|zzz` the form-invalid segment `zzz` is
never named — the parse stops earlier with the `invalid number in
expression` error of the over-range counted segment. -/
theorem invalid_segment_error_counterexample :
    parseInjectInstructions "{create-new*9999999999999999999}|zzz" =
      .error ("invalid number in expression {create-new*9999999999999999999}: " ++
        "strconv.Atoi: parsing \"9999999999999999999\": value out of range") ∧
    ("invalid number in expression {create-new*9999999999999999999}: " ++
        "strconv.Atoi: parsing \"9999999999999999999\": value out of range" :
        String) ≠
      "invalid injection instruction: zzz" :=
  ⟨rfl, by decide⟩

/-- Claim C5 (amended): the parse fails with the error of the FIRST
offending segment — `invalid injection instruction: <segment>` for a
segment matching no valid form, but the `invalid number in expression`
Atoi error when an earlier counted segment's count exceeds `maxInt64` —
and no instruction list is returned (Go returns `nil`, modelled by
`Except.error`).  The empty input's single empty segment is a
form-invalid segment. -/
theorem invalid_segment_error_amended (s : String) (msg : String)
    (hfind : (splitPipe s.data).findSome? segmentError = some msg) :
    parseInjectInstructions s = .error msg :=
  parseParts_error (splitPipe s.data) 0 [] msg hfind

/-- Witness for the amended C5 at the spec's own example input. -/
theorem invalid_segment_error_amended_witness :
    parseInjectInstructions "not-a-valid-segment" =
      .error "invalid injection instruction: not-a-valid-segment" :=
  invalid_segment_error_amended "not-a-valid-segment"
    "invalid injection instruction: not-a-valid-segment" (by decide)

/-! ## Repo-name extraction (claim C4) -/

/-- The characters of the URL scheme `"https://"`. -/
def httpsLit : List Char := ['h', 't', 't', 'p', 's', ':', '/', '/']

theorem takeWhile_append_cons_of_neg {p : Char → Bool} (x : Char) (b : List Char)
    (hx : p x = false) :
    ∀ a : List Char, (∀ c ∈ a, p c = true) →
      (a ++ x :: b).takeWhile p = a
  | [], _ => by simp [hx]
  | c :: a', ha => by
    have hc : p c = true := ha c (List.mem_cons_self _ _)
    simp only [List.cons_append, List.takeWhile_cons_of_pos hc]
    rw [takeWhile_append_cons_of_neg x b hx a' fun d hd => ha d (List.mem_cons_of_mem _ hd)]

theorem takeWhile_eq_self_of_all {p : Char → Bool} :
    ∀ r : List Char, (∀ c ∈ r, p c = true) → r.takeWhile p = r
  | [], _ => rfl
  | c :: r', h => by
    have hc : p c = true := h c (List.mem_cons_self _ _)
    simp only [List.takeWhile_cons_of_pos hc]
    rw [takeWhile_eq_self_of_all r' fun d hd => h d (List.mem_cons_of_mem _ hd)]

theorem scanRepo_skip (c : Char) (t : List Char) (h : extractAt (c :: t) = none) :
    scanRepo (c :: t) = scanRepo t := by
  simp only [scanRepo, h]

theorem scanRepo_hit (c : Char) (t r₀ : List Char)
    (h : extractAt (c :: t) = some r₀) : scanRepo (c :: t) = some r₀ := by
  simp only [scanRepo, h]

theorem extractAt_of_head_ne (c : Char) (t : List Char) (h : c ≠ 'g') :
    extractAt (c :: t) = none := by
  rw [extractAt, if_neg]
  intro hpre
  have : 'g' = c := (List.cons_prefix_cons.mp hpre).1
  exact h this.symm

/-- The successful match of `github\.com/[^/]+/([^/\.]+)` at the anchor
position: the capture is the maximal dot-free slash-free run of the text
after `owner/`. -/
theorem extractAt_github (owner rest2 : List Char)
    (ho : owner ≠ []) (ho2 : ∀ c ∈ owner, c ≠ '/')
    (hq : rest2.takeWhile (fun c => c != '/' && c != '.') ≠ []) :
    extractAt (githubComLit ++ (owner ++ '/' :: rest2)) =
      some (rest2.takeWhile (fun c => c != '/' && c != '.')) := by
  simp only [extractAt]
  rw [if_pos (List.prefix_append _ _)]
  rw [List.drop_left' (by rfl)]
  have htw : (owner ++ '/' :: rest2).takeWhile (fun c => c != '/') = owner :=
    takeWhile_append_cons_of_neg '/' rest2 (by simp) owner
      (fun c hc => by simpa using ho2 c hc)
  rw [htw, if_neg ho, List.drop_left]
  simp [hq]

/-- Scanning the full URL `https://github.com/owner/...` finds the match
anchored right after the scheme (no earlier position starts with `g`). -/
theorem scanRepo_https (x : List Char) :
    scanRepo (httpsLit ++ githubComLit ++ x) =
      scanRepo (githubComLit ++ x) := by
  simp only [httpsLit, List.cons_append, List.nil_append, List.append_assoc]
  rw [scanRepo_skip _ _ (extractAt_of_head_ne _ _ (by decide))]
  rw [scanRepo_skip _ _ (extractAt_of_head_ne _ _ (by decide))]
  rw [scanRepo_skip _ _ (extractAt_of_head_ne _ _ (by decide))]
  rw [scanRepo_skip _ _ (extractAt_of_head_ne _ _ (by decide))]
  rw [scanRepo_skip _ _ (extractAt_of_head_ne _ _ (by decide))]
  rw [scanRepo_skip _ _ (extractAt_of_head_ne _ _ (by decide))]
  rw [scanRepo_skip _ _ (extractAt_of_head_ne _ _ (by decide))]
  rw [scanRepo_skip _ _ (extractAt_of_head_ne _ _ (by decide))]

theorem extractRepoName_github (owner rest2 : List Char)
    (ho : owner ≠ []) (ho2 : ∀ c ∈ owner, c ≠ '/')
    (hq : rest2.takeWhile (fun c => c != '/' && c != '.') ≠ []) :
    extractRepoName (httpsLit ++ githubComLit ++ (owner ++ '/' :: rest2)) =
      rest2.takeWhile (fun c => c != '/' && c != '.') := by
  rw [extractRepoName, scanRepo_https]
  have hg : githubComLit ++ (owner ++ '/' :: rest2) =
      'g' :: (['i', 't', 'h', 'u', 'b', '.', 'c', 'o', 'm', '/'] ++
        (owner ++ '/' :: rest2)) := by
    simp [githubComLit]
  rw [hg] at *
  rw [scanRepo_hit _ _ _ (by rw [← hg]; exact extractAt_github owner rest2 ho ho2 hq)]
  rfl

/-- The `http` branch of the parser when repo-name extraction fails: the
instruction is named `imported-app-<s>` with `s` the 1-based segment
position. -/
theorem http_fallback_name (i : Nat) (parts : List (List Char))
    (acc : List InjectionInstruction) (seg : List Char)
    (l : List InjectionInstruction)
    (hh : httpLit <+: trimGo seg)
    (hrn : extractRepoName (trimGo seg) = [])
    (hok : parseParts i (seg :: parts) acc = .ok l) :
    l[acc.length]? =
      some (mkImport (String.mk (trimGo seg)) ("imported-app-" ++ natStr (i + 1))) := by
  have hne : trimGo seg ≠ createNewLit := by
    intro he
    rw [he] at hh
    exact absurd hh (by decide)
  have hopen : ¬ createNewOpen <+: trimGo seg := by
    intro hpre
    cases hcase : trimGo seg with
    | nil =>
      rw [hcase] at hh
      rw [List.prefix_nil] at hh
      cases hh
    | cons c t =>
      rw [hcase] at hh hpre
      have h1 : 'h' = c := (List.cons_prefix_cons.mp hh).1
      have h2 : '{' = c := (List.cons_prefix_cons.mp hpre).1
      rw [← h1] at h2
      cases h2
  have hmc : matchCounted (trimGo seg) = none := by
    rw [matchCounted, if_neg hopen]
  simp only [parseParts] at hok
  rw [if_neg hne, hmc, if_pos hh, hrn] at hok
  rw [if_pos rfl] at hok
  obtain ⟨t, ht⟩ := parseParts_mono _ _ _ _ hok
  rw [ht, List.append_assoc]
  rw [List.getElem?_append_right (Nat.le_refl _)]
  simp

/-- Counterexample to claim C4: for the URL
`https://github.com/acme/my.repo.git` the code truncates the repo
component at its *first* dot, producing app-name `my`, not `my.repo`
(the full name with only the trailing `.git` removed) as the claim
requires. -/
theorem repo_name_dot_counterexample :
    parseInjectInstructions "https://github.com/acme/my.repo.git" =
      .ok [mkImport "https://github.com/acme/my.repo.git" "my"] ∧
    ("my" : String) ≠ "my.repo" :=
  ⟨rfl, by decide⟩

/-- Claim C4 (amended): the produced app-name is the repo path component
truncated at its first `.` or `/` (so for dot-free repo names both the
plain and the `.git` form yield the full name, but a repo name containing
a dot is truncated at the dot rather than only losing a trailing `.git`);
when no `github.com/owner/repo` shape is found, the app-name is
`imported-app-<s>` with `s` the 1-based segment position. -/
theorem repo_name_amended :
    (∀ owner r : List Char, owner ≠ [] → (∀ c ∈ owner, c ≠ '/') → r ≠ [] →
      (∀ c ∈ r, c ≠ '/' ∧ c ≠ '.') →
      extractRepoName (httpsLit ++ githubComLit ++ (owner ++ '/' :: r)) = r ∧
      extractRepoName
        (httpsLit ++ githubComLit ++ (owner ++ '/' :: (r ++ ['.', 'g', 'i', 't']))) = r) ∧
    (∀ (i : Nat) (parts : List (List Char)) (acc : List InjectionInstruction)
      (seg : List Char) (l : List InjectionInstruction),
      httpLit <+: trimGo seg → extractRepoName (trimGo seg) = [] →
      parseParts i (seg :: parts) acc = .ok l →
      l[acc.length]? =
        some (mkImport (String.mk (trimGo seg)) ("imported-app-" ++ natStr (i + 1)))) := by
  constructor
  · intro owner r ho ho2 hr hchars
    have hall : ∀ c ∈ r, ((fun c => c != '/' && c != '.') c) = true := by
      intro c hc
      have := hchars c hc
      simp [this.1, this.2]
    have hself : r.takeWhile (fun c => c != '/' && c != '.') = r :=
      takeWhile_eq_self_of_all r hall
    constructor
    · rw [extractRepoName_github owner r ho ho2 (by rw [hself]; exact hr), hself]
    · have hgit : (r ++ ['.', 'g', 'i', 't']).takeWhile
          (fun c => c != '/' && c != '.') = r :=
        takeWhile_append_cons_of_neg '.' ['g', 'i', 't'] (by simp) r hall
      rw [extractRepoName_github owner _ ho ho2 (by rw [hgit]; exact hr), hgit]
  · exact http_fallback_name

/-- Witness for the amended C4: `widgets.git` yields `widgets`, and a
non-GitHub `http` segment at segment position 1 is named
`imported-app-1`. -/
theorem repo_name_amended_witness :
    extractRepoName
        (httpsLit ++ githubComLit ++ ("acme".data ++ '/' ::
          ("widgets".data ++ ['.', 'g', 'i', 't']))) = "widgets".data ∧
    ([mkImport "http://weird" "imported-app-1"] :
        List InjectionInstruction)[0]? =
      some (mkImport (String.mk (trimGo "http://weird".data))
        ("imported-app-" ++ natStr 1)) := by
  constructor
  · exact (repo_name_amended.1 "acme".data "widgets".data (by decide) (by decide)
      (by decide) (by decide)).2
  · exact repo_name_amended.2 0 [] [] "http://weird".data
      [mkImport "http://weird" "imported-app-1"] (by decide) (by decide) rfl

/-! ## Importing an existing repository (claims C8 and C10)

`importExistingRepo` (src/internal/utils/injection.go) shells out to
`git clone` and the filesystem.  The external world is modelled by a
`GitEnv` giving the outcome of each external operation, and the function
is modelled as returning both the list of performed external actions (its
trace) and its `error` result. -/

/-- Outcomes of the external operations used by `importExistingRepo`. -/
structure GitEnv where
  /-- Whether `git clone --branch <branch> --depth 1 <url> <dest>` succeeds. -/
  cloneOk : String → String → Bool
  /-- Whether `os.RemoveAll(appPath/.git)` succeeds. -/
  stripOk : Bool
  /-- Whether `convertToNxProject` succeeds. -/
  convertOk : Bool

/-- External actions performed by `importExistingRepo`, in order. -/
inductive ImportAction where
  | clone (url branch : String)
  | stripGit
  | convert
deriving DecidableEq, Repr

/-- Errors `importExistingRepo` can return.  A failure to remove `.git` is
only logged by the Go code and is deliberately not an error. -/
inductive ImportError where
  | cloneFailed
  | convertFailed
deriving DecidableEq, Repr

/-- The part of `importExistingRepo` after a successful clone: best-effort
`.git` removal (its outcome is recorded in the trace but never affects the
result), then `convertToNxProject`. -/
def importAfterClone (env : GitEnv) (tr : List ImportAction) :
    List ImportAction × Except ImportError Unit :=
  let tr2 := tr ++ [ImportAction.stripGit]
  let tr3 := tr2 ++ [ImportAction.convert]
  if env.convertOk then (tr3, .ok ()) else (tr3, .error .convertFailed)

/-- Mirror of Go `importExistingRepo`: clone trying branch `main`, then
`master` on failure; fail with a clone error only when both fail.  The
local `branch` variable computed from `instruction.Branch` is mirrored
(and, as in the Go code, never used). -/
def importExistingRepo (env : GitEnv) (instr : InjectionInstruction) :
    List ImportAction × Except ImportError Unit :=
  let _branch := if instr.branch = "" then "main" else instr.branch
  if env.cloneOk instr.repoURL "main" then
    importAfterClone env [ImportAction.clone instr.repoURL "main"]
  else if env.cloneOk instr.repoURL "master" then
    importAfterClone env
      [ImportAction.clone instr.repoURL "main", ImportAction.clone instr.repoURL "master"]
  else
    ([ImportAction.clone instr.repoURL "main", ImportAction.clone instr.repoURL "master"],
      .error .cloneFailed)

/-- The branches of the clone attempts in a trace, in order. -/
def cloneAttempts (tr : List ImportAction) : List String :=
  tr.filterMap fun a =>
    match a with
    | .clone _ b => some b
    | _ => none

/-- Claim C8: the clone is attempted with `main` first and with `master`
only if the first attempt fails; the run fails with a clone error iff both
attempts fail; and once a clone attempt succeeds, the outcome of the
best-effort `.git` removal never changes the result (nor the actions
taken). -/
theorem import_repo_clone_fallback (env : GitEnv) (instr : InjectionInstruction) :
    cloneAttempts (importExistingRepo env instr).1 =
      (if env.cloneOk instr.repoURL "main" then ["main"] else ["main", "master"]) ∧
    ((importExistingRepo env instr).2 = .error .cloneFailed ↔
      env.cloneOk instr.repoURL "main" = false ∧
        env.cloneOk instr.repoURL "master" = false) ∧
    (∀ b, importExistingRepo { env with stripOk := b } instr =
      importExistingRepo env instr) := by
  rcases env with ⟨cl, st, cv⟩
  cases h1 : cl instr.repoURL "main" <;>
    cases h2 : cl instr.repoURL "master" <;>
      cases h3 : cv <;>
        simp [importExistingRepo, importAfterClone, cloneAttempts, h1, h2, h3]

/-- Claim C10: the `Branch` field of an import instruction has no effect
on provisioning — two instructions differing only in `Branch` produce the
same actions and the same result — and the branch names ever attempted
are exactly `main`, then possibly `master`. -/
theorem branch_field_ignored (env : GitEnv) (instr : InjectionInstruction)
    (b₁ b₂ : String) :
    importExistingRepo env { instr with branch := b₁ } =
      importExistingRepo env { instr with branch := b₂ } ∧
    cloneAttempts (importExistingRepo env instr).1 ∈
      ([["main"], ["main", "master"]] : List (List String)) := by
  constructor
  · simp only [importExistingRepo]
  · rcases env with ⟨cl, st, cv⟩
    cases h1 : cl instr.repoURL "main" <;>
      cases h2 : cl instr.repoURL "master" <;>
        cases h3 : cv <;>
          simp [importExistingRepo, importAfterClone, cloneAttempts, h1, h2, h3]

/-! ## JSON documents and `updateImportedPackageJSON` (claim C6)

Go decodes `package.json` with `json.Unmarshal` into a
`map[string]interface{}`; the object is modelled as an association list
of fields, and the three kinds of map mutation used by the code (`m[k]=v`,
`delete(m, k)`, in-place edit of a nested map) as list operations. -/

/-- JSON-like values. -/
inductive Json where
  | str (s : String)
  | bool (b : Bool)
  | num (n : Int)
  | null
  | arr (elems : List Json)
  | obj (fields : List (String × Json))

/-- Go `m[k] = v`: replace the value when the key is present, otherwise
add the entry. -/
def setKeyJ (m : List (String × Json)) (k : String) (v : Json) :
    List (String × Json) :=
  if m.any (fun e => e.1 == k) then
    m.map fun e => if e.1 == k then (k, v) else e
  else m ++ [(k, v)]

/-- Go `delete(m, k)`. -/
def delKeyJ (m : List (String × Json)) (k : String) : List (String × Json) :=
  m.filter fun e => !(e.1 == k)

/-- The eight script keys deleted because they conflict with Nx plugins. -/
def conflictingScripts : List String :=
  ["start", "build", "test", "dev", "serve", "lint", "eject", "preview"]

/-- The build-tool name fragments whose dependency entries are deleted. -/
def buildTools : List String :=
  ["react-scripts", "@vitejs/plugin-react", "vite", "webpack", "eslint",
   "@eslint", "prettier", "@types/node", "typescript", "vitest",
   "@testing-library"]

/-- Go `strings.Contains`: `pat` occurs as a contiguous substring. -/
def containsSubstr (hay pat : String) : Bool := decide (pat.data <:+: hay.data)

/-- Deletion of the eight conflicting script keys from the scripts map. -/
def stripScripts (fields : List (String × Json)) : List (String × Json) :=
  fields.filter fun e => !(conflictingScripts.contains e.1)

/-- Deletion of dependency entries whose key contains a build-tool name. -/
def stripDeps (fields : List (String × Json)) : List (String × Json) :=
  fields.filter fun e => !(buildTools.any fun tool => containsSubstr e.1 tool)

/-- Transform the fields of an object value; leave any other value
unchanged (the Go type assertion `.(map[string]interface{})` fails and the
code skips the edit). -/
def objApply (f : List (String × Json) → List (String × Json)) : Json → Json
  | Json.obj o => Json.obj (f o)
  | v => v

/-- Apply `f` to the object stored at key `k` (Go edits the nested map in
place, which is an update of the value at that key). -/
def mapValObj (m : List (String × Json)) (k : String)
    (f : List (String × Json) → List (String × Json)) : List (String × Json) :=
  m.map fun e => if e.1 == k then (e.1, objApply f e.2) else e

/-- Mirror of Go `updateImportedPackageJSON`
(src/internal/utils/fetch-github-repo.go), acting on the decoded
package-manifest object: set `name`, set `private=true`, strip the
conflicting scripts, strip build-tool dependencies, delete
`devDependencies`, `eslintConfig`, `browserslist`, `homepage`, `type`. -/
def updateImportedPackageJSON (m : List (String × Json)) (appName : String) :
    List (String × Json) :=
  let m1 := setKeyJ m "name" (Json.str appName)
  let m2 := setKeyJ m1 "private" (Json.bool true)
  let m3 := mapValObj m2 "scripts" stripScripts
  let m4 := mapValObj m3 "dependencies" stripDeps
  let m5 := delKeyJ m4 "devDependencies"
  let m6 := delKeyJ m5 "eslintConfig"
  let m7 := delKeyJ m6 "browserslist"
  let m8 := delKeyJ m7 "homepage"
  delKeyJ m8 "type"

/-- Key `k` is present and every entry with key `k` is exactly `(k, v)`. -/
def keyIs (l : List (String × Json)) (k : String) (v : Json) : Prop :=
  (k, v) ∈ l ∧ ∀ e ∈ l, e.1 = k → e = (k, v)

/-- Key `k` does not occur. -/
def keyAbsent (l : List (String × Json)) (k : String) : Prop :=
  ∀ e ∈ l, ¬ e.1 = k

/-- Every object value stored at key `k` is a fixed point of `f`. -/
def valStable (l : List (String × Json)) (k : String)
    (f : List (String × Json) → List (String × Json)) : Prop :=
  ∀ e ∈ l, e.1 = k → ∀ o, e.2 = Json.obj o → f o = o

theorem mem_setKeyJ_self (l : List (String × Json)) (k : String) (v : Json) :
    (k, v) ∈ setKeyJ l k v := by
  unfold setKeyJ
  split
  · next h =>
    obtain ⟨e, he, hk⟩ := List.any_eq_true.mp h
    exact List.mem_map.mpr ⟨e, he, by simp [hk]⟩
  · exact List.mem_append_right _ (List.mem_singleton.mpr rfl)

theorem mem_setKeyJ_elim {l : List (String × Json)} {k : String} {v : Json}
    {e' : String × Json} (h : e' ∈ setKeyJ l k v) :
    e' = (k, v) ∨ (e' ∈ l ∧ ¬ e'.1 = k) := by
  unfold setKeyJ at h
  split at h
  · next =>
    obtain ⟨e, he, hfe⟩ := List.mem_map.mp h
    by_cases hk : e.1 = k
    · left
      rw [← hfe]
      simp [hk]
    · right
      rw [if_neg (by simpa using hk)] at hfe
      exact ⟨hfe ▸ he, hfe ▸ hk⟩
  · next hany =>
    rcases List.mem_append.mp h with he | he
    · right
      refine ⟨he, fun hk => hany ?_⟩
      exact List.any_eq_true.mpr ⟨e', he, by simpa using hk⟩
    · left
      exact List.mem_singleton.mp he

theorem setKeyJ_mem_of_ne {l : List (String × Json)} {k : String} {v : Json}
    {e : String × Json} (he : e ∈ l) (hne : ¬ e.1 = k) :
    e ∈ setKeyJ l k v := by
  unfold setKeyJ
  split
  · exact List.mem_map.mpr ⟨e, he, by simp [hne]⟩
  · exact List.mem_append_left _ he

theorem mapValObj_mem_of_ne {l : List (String × Json)} {k : String}
    {f : List (String × Json) → List (String × Json)}
    {e : String × Json} (he : e ∈ l) (hne : ¬ e.1 = k) :
    e ∈ mapValObj l k f :=
  List.mem_map.mpr ⟨e, he, by simp [hne]⟩

theorem mapValObj_mem_elim {l : List (String × Json)} {k : String}
    {f : List (String × Json) → List (String × Json)}
    {e' : String × Json} (h : e' ∈ mapValObj l k f) :
    ∃ e ∈ l, (¬ e.1 = k ∧ e' = e) ∨ (e.1 = k ∧ e' = (e.1, objApply f e.2)) := by
  obtain ⟨e, he, hfe⟩ := List.mem_map.mp h
  by_cases hk : e.1 = k
  · exact ⟨e, he, Or.inr ⟨hk, by rw [← hfe]; simp [hk]⟩⟩
  · exact ⟨e, he, Or.inl ⟨hk, by rw [← hfe]; simp [hk]⟩⟩

theorem delKeyJ_subset {l : List (String × Json)} {k : String}
    {e : String × Json} (h : e ∈ delKeyJ l k) : e ∈ l :=
  (List.mem_filter.mp h).1

theorem delKeyJ_mem_of_ne {l : List (String × Json)} {k : String}
    {e : String × Json} (he : e ∈ l) (hne : ¬ e.1 = k) :
    e ∈ delKeyJ l k :=
  List.mem_filter.mpr ⟨he, by simpa using hne⟩

theorem setKeyJ_keyIs (l : List (String × Json)) (k : String) (v : Json) :
    keyIs (setKeyJ l k v) k v := by
  refine ⟨mem_setKeyJ_self l k v, fun e' he' hk => ?_⟩
  rcases mem_setKeyJ_elim he' with h | ⟨_, hne⟩
  · exact h
  · exact absurd hk hne

theorem keyIs_setKeyJ_ne {l : List (String × Json)} {k : String} {v : Json}
    (h : keyIs l k v) {k' : String} {v' : Json} (hne : ¬ k = k') :
    keyIs (setKeyJ l k' v') k v := by
  refine ⟨setKeyJ_mem_of_ne h.1 hne, fun e' he' hk => ?_⟩
  rcases mem_setKeyJ_elim he' with he | ⟨hm, _⟩
  · rw [he] at hk
    exact absurd hk.symm hne
  · exact h.2 e' hm hk

theorem keyIs_mapValObj_ne {l : List (String × Json)} {k : String} {v : Json}
    (h : keyIs l k v) {k' : String}
    {f : List (String × Json) → List (String × Json)} (hne : ¬ k = k') :
    keyIs (mapValObj l k' f) k v := by
  refine ⟨mapValObj_mem_of_ne h.1 hne, fun e' he' hk => ?_⟩
  obtain ⟨e, he, ⟨_, hee⟩ | ⟨hke, hee⟩⟩ := mapValObj_mem_elim he'
  · exact h.2 e' (hee ▸ he) hk
  · rw [hee] at hk
    exact absurd (hk ▸ hke : k = k') hne

theorem keyIs_delKeyJ_ne {l : List (String × Json)} {k : String} {v : Json}
    (h : keyIs l k v) {k' : String} (hne : ¬ k = k') :
    keyIs (delKeyJ l k') k v :=
  ⟨delKeyJ_mem_of_ne h.1 hne, fun e' he' hk => h.2 e' (delKeyJ_subset he') hk⟩

theorem mapValObj_valStable (l : List (String × Json)) (k : String)
    (f : List (String × Json) → List (String × Json))
    (hf : ∀ o, f (f o) = f o) : valStable (mapValObj l k f) k f := by
  intro e' he' hk o ho
  obtain ⟨e, hel, ⟨hne, hee⟩ | ⟨hke, hee⟩⟩ := mapValObj_mem_elim he'
  · exact absurd (hee ▸ hk) hne
  · subst hee
    rcases e with ⟨a, b⟩
    cases b with
    | obj o₀ =>
      simp only [objApply] at ho
      cases ho
      exact hf o₀
    | str s => simp [objApply] at ho
    | bool bb => simp [objApply] at ho
    | num nn => simp [objApply] at ho
    | null => simp [objApply] at ho
    | arr es => simp [objApply] at ho

theorem valStable_setKeyJ_ne {l : List (String × Json)} {k : String}
    {f : List (String × Json) → List (String × Json)}
    (h : valStable l k f) {k' : String} {v' : Json} (hne : ¬ k = k') :
    valStable (setKeyJ l k' v') k f := by
  intro e' he' hk o ho
  rcases mem_setKeyJ_elim he' with he | ⟨hm, _⟩
  · rw [he] at hk
    exact absurd hk.symm hne
  · exact h e' hm hk o ho

theorem valStable_mapValObj_ne {l : List (String × Json)} {k : String}
    {f : List (String × Json) → List (String × Json)}
    (h : valStable l k f) {k' : String}
    {g : List (String × Json) → List (String × Json)} (hne : ¬ k = k') :
    valStable (mapValObj l k' g) k f := by
  intro e' he' hk o ho
  obtain ⟨e, he, ⟨_, hee⟩ | ⟨hke, hee⟩⟩ := mapValObj_mem_elim he'
  · exact h e' (hee ▸ he) hk o ho
  · rw [hee] at hk
    exact absurd (hk ▸ hke : k = k') hne

theorem valStable_delKeyJ {l : List (String × Json)} {k : String}
    {f : List (String × Json) → List (String × Json)}
    (h : valStable l k f) (k' : String) :
    valStable (delKeyJ l k') k f :=
  fun e' he' hk o ho => h e' (delKeyJ_subset he') hk o ho

theorem delKeyJ_keyAbsent (l : List (String × Json)) (k : String) :
    keyAbsent (delKeyJ l k) k :=
  fun e he => by simpa using (List.mem_filter.mp he).2

theorem keyAbsent_delKeyJ {l : List (String × Json)} {k : String}
    (h : keyAbsent l k) (k' : String) : keyAbsent (delKeyJ l k') k :=
  fun e he => h e (delKeyJ_subset he)

theorem setKeyJ_eq_self {l : List (String × Json)} {k : String} {v : Json}
    (h : keyIs l k v) : setKeyJ l k v = l := by
  unfold setKeyJ
  rw [if_pos (List.any_eq_true.mpr ⟨(k, v), h.1, by simp⟩)]
  refine (List.map_congr_left ?_).trans (List.map_id l)
  intro e he
  by_cases hk : e.1 = k
  · rw [h.2 e he hk]
    simp
  · simp [hk]

theorem mapValObj_eq_self {l : List (String × Json)} {k : String}
    {f : List (String × Json) → List (String × Json)}
    (h : valStable l k f) : mapValObj l k f = l := by
  unfold mapValObj
  refine (List.map_congr_left ?_).trans (List.map_id l)
  intro e he
  by_cases hk : e.1 = k
  · rcases e with ⟨a, b⟩
    cases b with
    | obj o =>
      have ho : f o = o := h (a, Json.obj o) he hk o rfl
      simp [hk, objApply, ho]
    | str s => simp [hk, objApply]
    | bool bb => simp [hk, objApply]
    | num nn => simp [hk, objApply]
    | null => simp [hk, objApply]
    | arr es => simp [hk, objApply]
  · simp [hk]

theorem delKeyJ_eq_self {l : List (String × Json)} {k : String}
    (h : keyAbsent l k) : delKeyJ l k = l :=
  List.filter_eq_self.mpr fun e he => by simpa using h e he

theorem filter_idem (l : List (String × Json)) (p : String × Json → Bool) :
    (l.filter p).filter p = l.filter p :=
  List.filter_eq_self.mpr fun _ ha => List.of_mem_filter ha

/-- Claim C6: the normalize-imported-manifest transformation is
idempotent — applying it twice to any decoded package-manifest object
yields the same object as applying it once. -/
theorem update_imported_package_json_idempotent
    (m : List (String × Json)) (n : String) :
    updateImportedPackageJSON (updateImportedPackageJSON m n) n =
      updateImportedPackageJSON m n := by
  have hscripts : ∀ o, stripScripts (stripScripts o) = stripScripts o :=
    fun o => filter_idem o _
  have hdeps : ∀ o, stripDeps (stripDeps o) = stripDeps o :=
    fun o => filter_idem o _
  have F1 : keyIs (updateImportedPackageJSON m n) "name" (Json.str n) := by
    unfold updateImportedPackageJSON
    exact keyIs_delKeyJ_ne (keyIs_delKeyJ_ne (keyIs_delKeyJ_ne (keyIs_delKeyJ_ne
      (keyIs_delKeyJ_ne (keyIs_mapValObj_ne (keyIs_mapValObj_ne (keyIs_setKeyJ_ne
        (setKeyJ_keyIs m "name" (Json.str n)) (by decide)) (by decide))
          (by decide)) (by decide)) (by decide)) (by decide)) (by decide))
            (by decide)
  have F2 : keyIs (updateImportedPackageJSON m n) "private" (Json.bool true) := by
    unfold updateImportedPackageJSON
    exact keyIs_delKeyJ_ne (keyIs_delKeyJ_ne (keyIs_delKeyJ_ne (keyIs_delKeyJ_ne
      (keyIs_delKeyJ_ne (keyIs_mapValObj_ne (keyIs_mapValObj_ne
        (setKeyJ_keyIs _ "private" (Json.bool true)) (by decide))
          (by decide)) (by decide)) (by decide)) (by decide)) (by decide))
            (by decide)
  have F3 : valStable (updateImportedPackageJSON m n) "scripts" stripScripts := by
    unfold updateImportedPackageJSON
    exact valStable_delKeyJ (valStable_delKeyJ (valStable_delKeyJ
      (valStable_delKeyJ (valStable_delKeyJ (valStable_mapValObj_ne
        (mapValObj_valStable _ "scripts" stripScripts hscripts) (by decide))
          _) _) _) _) _
  have F4 : valStable (updateImportedPackageJSON m n) "dependencies" stripDeps := by
    unfold updateImportedPackageJSON
    exact valStable_delKeyJ (valStable_delKeyJ (valStable_delKeyJ
      (valStable_delKeyJ (valStable_delKeyJ
        (mapValObj_valStable _ "dependencies" stripDeps hdeps) _) _) _) _) _
  have F5 : keyAbsent (updateImportedPackageJSON m n) "devDependencies" := by
    unfold updateImportedPackageJSON
    exact keyAbsent_delKeyJ (keyAbsent_delKeyJ (keyAbsent_delKeyJ
      (keyAbsent_delKeyJ (delKeyJ_keyAbsent _ "devDependencies") _) _) _) _
  have F6 : keyAbsent (updateImportedPackageJSON m n) "eslintConfig" := by
    unfold updateImportedPackageJSON
    exact keyAbsent_delKeyJ (keyAbsent_delKeyJ (keyAbsent_delKeyJ
      (delKeyJ_keyAbsent _ "eslintConfig") _) _) _
  have F7 : keyAbsent (updateImportedPackageJSON m n) "browserslist" := by
    unfold updateImportedPackageJSON
    exact keyAbsent_delKeyJ (keyAbsent_delKeyJ
      (delKeyJ_keyAbsent _ "browserslist") _) _
  have F8 : keyAbsent (updateImportedPackageJSON m n) "homepage" := by
    unfold updateImportedPackageJSON
    exact keyAbsent_delKeyJ (delKeyJ_keyAbsent _ "homepage") _
  have F9 : keyAbsent (updateImportedPackageJSON m n) "type" := by
    unfold updateImportedPackageJSON
    exact delKeyJ_keyAbsent _ "type"
  set u := updateImportedPackageJSON m n with hu
  have e1 : setKeyJ u "name" (Json.str n) = u := setKeyJ_eq_self F1
  have e2 : setKeyJ u "private" (Json.bool true) = u := setKeyJ_eq_self F2
  have e3 : mapValObj u "scripts" stripScripts = u := mapValObj_eq_self F3
  have e4 : mapValObj u "dependencies" stripDeps = u := mapValObj_eq_self F4
  have e5 : delKeyJ u "devDependencies" = u := delKeyJ_eq_self F5
  have e6 : delKeyJ u "eslintConfig" = u := delKeyJ_eq_self F6
  have e7 : delKeyJ u "browserslist" = u := delKeyJ_eq_self F7
  have e8 : delKeyJ u "homepage" = u := delKeyJ_eq_self F8
  have e9 : delKeyJ u "type" = u := delKeyJ_eq_self F9
  show updateImportedPackageJSON u n = u
  unfold updateImportedPackageJSON
  show delKeyJ (delKeyJ (delKeyJ (delKeyJ (delKeyJ (mapValObj (mapValObj
    (setKeyJ (setKeyJ u "name" (Json.str n)) "private" (Json.bool true))
    "scripts" stripScripts) "dependencies" stripDeps) "devDependencies")
    "eslintConfig") "browserslist") "homepage") "type" = u
  rw [e1, e2, e3, e4, e5, e6, e7, e8, e9]

/-! ## Zip extraction onto a filesystem (claim C9)

The filesystem is modelled as an association list from paths (component
lists) to nodes; `filepath.Join`/`filepath.Dir` become `++`/`dropLast` on
component lists.  `extractFile`
(src/internal/utils/fetch-github-repo.go) is modelled step by step:
stat the parent, remove a blocking plain file there, `os.MkdirAll`,
`os.Create`, copy. -/

/-- A filesystem path, as its slash-separated components. -/
abbrev FsPath := List String

/-- A filesystem node: a directory or a plain file with its content. -/
inductive FsNode where
  | dir
  | file (content : String)
deriving DecidableEq, Repr

/-- The filesystem: a finite map from paths to nodes. -/
abbrev Fs := List (FsPath × FsNode)

/-- `os.Stat`: the node at exactly this path, if any. -/
def fsLookup (fs : Fs) (p : FsPath) : Option FsNode :=
  (fs.find? fun e => e.1 == p).map (·.2)

/-- `os.Remove` of the entry at `p`. -/
def fsRemove (fs : Fs) (p : FsPath) : Fs :=
  fs.filter fun e => !(e.1 == p)

/-- Create or overwrite the node at `p`. -/
def fsInsert (fs : Fs) (p : FsPath) (n : FsNode) : Fs :=
  fsRemove fs p ++ [(p, n)]

/-- Decidable observer: a plain file sits at `p`. -/
def isFileAt (fs : Fs) (p : FsPath) : Bool :=
  match fsLookup fs p with
  | some (.file _) => true
  | _ => false

/-- Decidable observer: a directory sits at `p`. -/
def isDirAt (fs : Fs) (p : FsPath) : Bool :=
  match fsLookup fs p with
  | some .dir => true
  | _ => false

/-- The directory-creation loop of `os.MkdirAll`: create each prefix in
turn; fail when a plain file occupies a prefix (ENOTDIR). -/
def mkdirPrefixes : Fs → List FsPath → Except Unit Fs
  | fs, [] => .ok fs
  | fs, q :: rest =>
    match fsLookup fs q with
    | some (.file _) => .error ()
    | some .dir => mkdirPrefixes fs rest
    | none => mkdirPrefixes (fsInsert fs q .dir) rest

/-- The nonempty prefixes of a path, shortest first. -/
def pathPrefixes (p : FsPath) : List FsPath :=
  (List.range p.length).map fun i => p.take (i + 1)

/-- `os.MkdirAll(p)`. -/
def mkdirAll (fs : Fs) (p : FsPath) : Except Unit Fs :=
  mkdirPrefixes fs (pathPrefixes p)

/-- `os.Create(p)` followed by writing `content`: fails when a directory
occupies `p`, otherwise creates or truncates the plain file. -/
def fsCreate (fs : Fs) (p : FsPath) (content : String) : Except Unit Fs :=
  match fsLookup fs p with
  | some .dir => .error ()
  | _ => .ok (fsInsert fs p (.file content))

/-- One entry of the ZIP archive: its name (slash-separated, including
the archive's root-level directory), whether it is a directory entry, and
its content. -/
structure ZipEntry where
  name : FsPath
  isDir : Bool
  content : String

/-- Mirror of Go `extractFile`: the destination is
`filepath.Join(destPath, file.Name)` — the archive's own root directory is
NOT stripped.  For a file entry, a plain file occupying the immediate
parent directory path is removed before `MkdirAll`. -/
def extractFile (fs : Fs) (destPath : FsPath) (entry : ZipEntry) :
    Except Unit Fs :=
  if entry.isDir then mkdirAll fs (destPath ++ entry.name)
  else
    match mkdirAll
        (match fsLookup fs (destPath ++ entry.name).dropLast with
          | some (.file _) => fsRemove fs (destPath ++ entry.name).dropLast
          | _ => fs)
        ((destPath ++ entry.name).dropLast) with
    | .error e => .error e
    | .ok fs2 => fsCreate fs2 (destPath ++ entry.name) entry.content

theorem find?_filter_keyne (fs : Fs) (p q : FsPath) (h : ¬ q = p) :
    (fs.filter fun e => !(e.1 == p)).find? (fun e => e.1 == q) =
      fs.find? (fun e => e.1 == q) := by
  induction fs with
  | nil => rfl
  | cons e fs ih =>
    by_cases hp : e.1 = p
    · have hcondp : (!(e.1 == p)) = false := by simp [hp]
      have h2 : (e.1 == q) = false := by
        rw [hp]
        simp only [beq_eq_false_iff_ne, ne_eq]
        exact fun hh => h hh.symm
      simp [List.filter_cons, List.find?_cons, hcondp, h2, ih]
    · have hcondp : (!(e.1 == p)) = true := by simp [hp]
      by_cases hq : e.1 = q
      · have h2 : (e.1 == q) = true := by simp [hq]
        simp [List.filter_cons, List.find?_cons, hcondp, h2]
      · have h2 : (e.1 == q) = false := by simp [hq]
        simp [List.filter_cons, List.find?_cons, hcondp, h2, ih]

theorem fsLookup_insert (fs : Fs) (p : FsPath) (n : FsNode) :
    fsLookup (fsInsert fs p n) p = some n := by
  unfold fsInsert fsLookup
  rw [List.find?_append]
  have h1 : (fsRemove fs p).find? (fun e => e.1 == p) = none := by
    rw [List.find?_eq_none]
    intro e he
    have := (List.mem_filter.mp he).2
    simpa using this
  rw [h1]
  rw [List.find?_cons_of_pos _ (by simp)]
  rfl

theorem fsLookup_insert_ne (fs : Fs) (p q : FsPath) (n : FsNode)
    (h : ¬ q = p) : fsLookup (fsInsert fs p n) q = fsLookup fs q := by
  unfold fsInsert fsLookup fsRemove
  rw [List.find?_append]
  have h2 : List.find? (fun e => e.1 == q) [(p, n)] = none := by
    rw [List.find?_eq_none]
    intro x hx
    rw [List.mem_singleton] at hx
    subst hx
    simp only [beq_iff_eq]
    exact fun hh => h hh.symm
  rw [h2, find?_filter_keyne fs p q h, Option.or_none]

theorem fsLookup_remove_self (fs : Fs) (p : FsPath) :
    fsLookup (fsRemove fs p) p = none := by
  unfold fsRemove fsLookup
  rw [List.find?_eq_none.mpr]
  · rfl
  · intro e he
    have := (List.mem_filter.mp he).2
    simpa using this

theorem fsLookup_remove_ne (fs : Fs) (p q : FsPath) (h : ¬ q = p) :
    fsLookup (fsRemove fs p) q = fsLookup fs q := by
  unfold fsRemove fsLookup
  rw [find?_filter_keyne fs p q h]

/-- `mkdirPrefixes` succeeds when no plain file occupies any of the paths
to create, and leaves every other path's node unchanged. -/
theorem mkdirPrefixes_ok : ∀ (qs : List FsPath) (fs : Fs),
    (∀ q ∈ qs, isFileAt fs q = false) →
    ∃ fs', mkdirPrefixes fs qs = .ok fs' ∧
      ∀ p', p' ∉ qs → fsLookup fs' p' = fsLookup fs p'
  | [], fs, _ => ⟨fs, rfl, fun _ _ => rfl⟩
  | q :: rest, fs, h => by
    have hq := h q (List.mem_cons_self _ _)
    simp only [mkdirPrefixes]
    cases hlk : fsLookup fs q with
    | some n =>
      cases n with
      | file c =>
        exfalso
        rw [isFileAt, hlk] at hq
        cases hq
      | dir =>
        obtain ⟨fs', hok, hpres⟩ := mkdirPrefixes_ok rest fs
          (fun q' hq' => h q' (List.mem_cons_of_mem _ hq'))
        exact ⟨fs', hok, fun p' hp' =>
          hpres p' fun hm => hp' (List.mem_cons_of_mem _ hm)⟩
    | none =>
      obtain ⟨fs', hok, hpres⟩ := mkdirPrefixes_ok rest (fsInsert fs q .dir)
        (fun q' hq' => by
          by_cases hqq : q' = q
          · rw [isFileAt, hqq, fsLookup_insert]
          · rw [isFileAt, fsLookup_insert_ne fs q q' .dir hqq]
            have := h q' (List.mem_cons_of_mem _ hq')
            rw [isFileAt] at this
            exact this)
      refine ⟨fs', hok, fun p' hp' => ?_⟩
      rw [hpres p' fun hm => hp' (List.mem_cons_of_mem _ hm)]
      exact fsLookup_insert_ne fs q p' .dir fun hh => hp' (hh ▸ List.mem_cons_self _ _)

/-- Every element of `pathPrefixes p` is no longer than `p`. -/
theorem pathPrefixes_length_le (p : FsPath) :
    ∀ q ∈ pathPrefixes p, q.length ≤ p.length := by
  intro q hq
  obtain ⟨i, _, hi⟩ := List.mem_map.mp hq
  rw [← hi]
  simp

/-- Counterexample to claim C9: extracting the entry `root/f.txt` into
destination `d` materializes the file at `d/root/f.txt` — the archive's
own root-level directory `root` is NOT stripped — and nothing appears at
the stripped path `d/f.txt`. -/
theorem extract_file_no_strip_counterexample :
    extractFile [(["d"], FsNode.dir)] ["d"] ⟨["root", "f.txt"], false, "x"⟩ =
      .ok [(["d"], FsNode.dir), (["d", "root"], FsNode.dir),
        (["d", "root", "f.txt"], FsNode.file "x")] ∧
    fsLookup [(["d"], FsNode.dir), (["d", "root"], FsNode.dir),
        (["d", "root", "f.txt"], FsNode.file "x")] ["d", "f.txt"] = none ∧
    fsLookup [(["d"], FsNode.dir), (["d", "root"], FsNode.dir),
        (["d", "root", "f.txt"], FsNode.file "x")] ["d", "root", "f.txt"] =
      some (FsNode.file "x") := by
  refine ⟨?_, ?_, ?_⟩ <;> rfl

/-- Claim C9 (amended): single-entry extraction materializes a file entry
at the destination joined with the FULL entry name (the archive's
root-level directory prefix is not stripped); and when the immediate
parent directory path is occupied by a plain file — with the higher
ancestors free of plain files and the target itself not a directory —
extraction removes the blocking file and succeeds.  (A plain file at a
higher ancestor still makes `MkdirAll` fail, so the blocking-file removal
applies only to the immediate parent.) -/
theorem extract_file_amended :
    (∀ (fs : Fs) (destPath : FsPath) (entry : ZipEntry) (fs' : Fs),
      entry.isDir = false → extractFile fs destPath entry = .ok fs' →
      fsLookup fs' (destPath ++ entry.name) = some (.file entry.content)) ∧
    (∀ (fs : Fs) (destPath : FsPath) (entry : ZipEntry),
      entry.isDir = false → entry.name ≠ [] →
      isFileAt fs ((destPath ++ entry.name).dropLast) = true →
      (∀ q ∈ pathPrefixes ((destPath ++ entry.name).dropLast),
        q ≠ (destPath ++ entry.name).dropLast → isFileAt fs q = false) →
      isDirAt fs (destPath ++ entry.name) = false →
      ∃ fs', extractFile fs destPath entry = .ok fs') := by
  constructor
  · intro fs destPath entry fs' hdir hok
    rw [extractFile, if_neg (by simp [hdir])] at hok
    rcases hmk : mkdirAll
        (match fsLookup fs (destPath ++ entry.name).dropLast with
          | some (.file _) => fsRemove fs (destPath ++ entry.name).dropLast
          | _ => fs)
        ((destPath ++ entry.name).dropLast) with e | fs2
    · rw [hmk] at hok
      have hok2 : (Except.error e : Except Unit Fs) = .ok fs' := hok
      cases hok2
    · rw [hmk] at hok
      have hok2 : fsCreate fs2 (destPath ++ entry.name) entry.content =
          .ok fs' := hok
      rw [fsCreate] at hok2
      rcases hlk : fsLookup fs2 (destPath ++ entry.name) with _ | n
      · rw [hlk] at hok2
        have hok3 : Except.ok (fsInsert fs2 (destPath ++ entry.name)
            (.file entry.content)) = Except.ok fs' := hok2
        cases hok3
        exact fsLookup_insert _ _ _
      · cases n with
        | dir =>
          rw [hlk] at hok2
          have hok3 : (Except.error () : Except Unit Fs) = .ok fs' := hok2
          cases hok3
        | file c =>
          rw [hlk] at hok2
          have hok3 : Except.ok (fsInsert fs2 (destPath ++ entry.name)
              (.file entry.content)) = Except.ok fs' := hok2
          cases hok3
          exact fsLookup_insert _ _ _
  · intro fs destPath entry hdir hname hblk hanc htgt
    rw [extractFile, if_neg (by simp [hdir])]
    rcases hfl : fsLookup fs (destPath ++ entry.name).dropLast with _ | n
    · rw [isFileAt, hfl] at hblk
      cases hblk
    · cases n with
      | dir =>
        rw [isFileAt, hfl] at hblk
        cases hblk
      | file c =>
        have hall : ∀ q ∈ pathPrefixes ((destPath ++ entry.name).dropLast),
            isFileAt (fsRemove fs ((destPath ++ entry.name).dropLast)) q = false := by
          intro q hq
          by_cases hqq : q = (destPath ++ entry.name).dropLast
          · rw [isFileAt, hqq, fsLookup_remove_self]
          · rw [isFileAt, fsLookup_remove_ne fs _ q hqq]
            have := hanc q hq hqq
            rw [isFileAt] at this
            exact this
        obtain ⟨fs2, hok, hpres⟩ := mkdirPrefixes_ok _ _ hall
        have hok' : mkdirAll (fsRemove fs ((destPath ++ entry.name).dropLast))
            ((destPath ++ entry.name).dropLast) = .ok fs2 := hok
        show ∃ fs', (match mkdirAll
            (fsRemove fs ((destPath ++ entry.name).dropLast))
            ((destPath ++ entry.name).dropLast) with
          | .error e => (.error e : Except Unit Fs)
          | .ok fs2 => fsCreate fs2 (destPath ++ entry.name) entry.content) =
            .ok fs'
        rw [hok']
        have hlong : (destPath ++ entry.name) ∉
            pathPrefixes ((destPath ++ entry.name).dropLast) := by
          intro hm
          have h1 := pathPrefixes_length_le _ _ hm
          have h2 : (destPath ++ entry.name).dropLast.length <
              (destPath ++ entry.name).length := by
            rw [List.length_dropLast]
            have : destPath ++ entry.name ≠ [] := by
              intro hh
              exact hname (List.append_eq_nil.mp hh).2
            have hpos : 0 < (destPath ++ entry.name).length :=
              List.length_pos.mpr this
            omega
          omega
        have hkeep : fsLookup fs2 (destPath ++ entry.name) =
            fsLookup fs (destPath ++ entry.name) := by
          rw [hpres _ hlong]
          refine fsLookup_remove_ne fs _ _ ?_
          intro hh
          have h2 : (destPath ++ entry.name).dropLast.length <
              (destPath ++ entry.name).length := by
            rw [List.length_dropLast]
            have : destPath ++ entry.name ≠ [] := by
              intro hh2
              exact hname (List.append_eq_nil.mp hh2).2
            have hpos : 0 < (destPath ++ entry.name).length :=
              List.length_pos.mpr this
            omega
          have hlen := congrArg List.length hh
          omega
        show ∃ fs', fsCreate fs2 (destPath ++ entry.name) entry.content = .ok fs'
        rw [fsCreate, hkeep]
        rcases hlk : fsLookup fs (destPath ++ entry.name) with _ | n2
        · exact ⟨_, rfl⟩
        · cases n2 with
          | dir =>
            rw [isDirAt, hlk] at htgt
            cases htgt
          | file c2 => exact ⟨_, rfl⟩

/-- Witness for the amended C9: extracting `root/f.txt` while a plain file
occupies `d/root` succeeds (the blocker is removed) and materializes the
file at the unstripped path `d/root/f.txt`. -/
theorem extract_file_amended_witness :
    (extractFile [(["d", "root"], FsNode.file "old")] ["d"]
        ⟨["root", "f.txt"], false, "x"⟩ =
      .ok [(["d"], FsNode.dir), (["d", "root"], FsNode.dir),
        (["d", "root", "f.txt"], FsNode.file "x")]) ∧
    (∃ fs', extractFile [(["d", "root"], FsNode.file "old")] ["d"]
        ⟨["root", "f.txt"], false, "x"⟩ = .ok fs') ∧
    fsLookup [(["d"], FsNode.dir), (["d", "root"], FsNode.dir),
        (["d", "root", "f.txt"], FsNode.file "x")] ["d", "root", "f.txt"] =
      some (FsNode.file "x") := by
  refine ⟨rfl, ?_, ?_⟩
  · exact extract_file_amended.2 [(["d", "root"], FsNode.file "old")] ["d"]
      ⟨["root", "f.txt"], false, "x"⟩ rfl (by decide) (by decide)
      (by decide) (by decide)
  · exact extract_file_amended.1 [(["d", "root"], FsNode.file "old")] ["d"]
      ⟨["root", "f.txt"], false, "x"⟩ _ rfl rfl

/-! ## `replaceTemplateName` and placeholder replacement (claim C7)

Go `strings.ReplaceAll(s, old, new)` replaces the leftmost
non-overlapping occurrences of `old`, scanning left to right.  It is
modelled with explicit fuel (structural recursion, always sufficient at
the call site); the model agrees with Go for the non-empty patterns used
by `replaceTemplateName`. -/

/-- Fuel-driven model of `strings.ReplaceAll`: at each position, if `pat`
is a prefix, emit `rep` and skip `pat.length` characters, else keep one
character and continue. -/
def replaceAllAux (pat rep : List Char) : Nat → List Char → List Char
  | 0, s => s
  | fuel + 1, s =>
    match s with
    | [] => []
    | c :: rest =>
      if pat <+: (c :: rest) then
        rep ++ replaceAllAux pat rep fuel ((c :: rest).drop pat.length)
      else c :: replaceAllAux pat rep fuel rest

/-- `strings.ReplaceAll s pat rep` for non-empty `pat`. -/
def replaceAllL (s pat rep : List Char) : List Char :=
  replaceAllAux pat rep s.length s

/-- The four placeholder app names replaced by `replaceTemplateName`. -/
def templateNames : List String := ["my-app", "myapp", "template-app", "nx-app"]

/-- All characters occurring in any of the four placeholder names. -/
def placeholderChars : List Char := (templateNames.map String.data).flatten

/-- Mirror of Go `replaceTemplateName`
(src/internal/utils/fetch-github-repo.go): sequentially replace every
occurrence of each placeholder name with the app name. -/
def replaceTemplateName (path appName : String) : String :=
  let r1 := replaceAllL path.data "my-app".data appName.data
  let r2 := replaceAllL r1 "myapp".data appName.data
  let r3 := replaceAllL r2 "template-app".data appName.data
  let r4 := replaceAllL r3 "nx-app".data appName.data
  ⟨r4⟩

/-- An occurrence of `pat` inside `a ++ b` must lie inside `b` when no
character of `a` belongs to `pat`. -/
theorem infix_append_right_of_clean (pat : List Char) (hpat : pat ≠ []) :
    ∀ (a b : List Char), (∀ c ∈ a, c ∉ pat) → pat <:+: a ++ b → pat <:+: b
  | [], _, _, h => h
  | c :: a', b, hclean, h => by
    rw [List.cons_append, List.infix_cons_iff] at h
    rcases h with h | h
    · cases hp : pat with
      | nil => exact absurd hp hpat
      | cons p₀ pt =>
        rw [hp] at h
        have hc : p₀ = c := (List.cons_prefix_cons.mp h).1
        have : c ∈ pat := by
          rw [hp, ← hc]
          exact List.mem_cons_self _ _
        exact absurd this (hclean c (List.mem_cons_self _ _))
    · exact infix_append_right_of_clean pat hpat a' b
        (fun d hd => hclean d (List.mem_cons_of_mem _ hd)) h

/-- A non-empty string over placeholder characters that is a prefix of the
replacement output is already a prefix of the input (the replacement text
contains no placeholder characters and so can never start such a
prefix). -/
theorem replaceAllAux_prefix_reflect (rep : List Char) (hrep : rep ≠ [])
    (hrepP : ∀ c ∈ rep, c ∉ placeholderChars) :
    ∀ (fuel : Nat) (t pat' pat₂ : List Char),
      pat₂ ≠ [] → (∀ c ∈ pat₂, c ∈ placeholderChars) →
      pat₂ <+: replaceAllAux pat' rep fuel t → pat₂ <+: t
  | 0, t, _, pat₂, _, _, h => h
  | fuel + 1, [], _, pat₂, hne, _, h => by
    have h' : pat₂ <+: ([] : List Char) := h
    rw [List.prefix_nil] at h'
    exact absurd h' hne
  | fuel + 1, c :: rest, pat', pat₂, hne, hP, h => by
    rcases pat₂ with _ | ⟨p₀, p₂'⟩
    · exact absurd rfl hne
    · simp only [replaceAllAux] at h
      split at h
      · rcases hr : rep with _ | ⟨r₀, rep'⟩
        · exact absurd hr hrep
        · rw [hr, List.cons_append, List.cons_prefix_cons] at h
          have hmem : p₀ ∈ placeholderChars := hP p₀ (List.mem_cons_self _ _)
          rw [h.1] at hmem
          exact absurd hmem (hrepP r₀ (by rw [hr]; exact List.mem_cons_self _ _))
      · rw [List.cons_prefix_cons] at h
        obtain ⟨hc, hpre⟩ := h
        rw [List.cons_prefix_cons]
        refine ⟨hc, ?_⟩
        rcases hp2' : p₂' with _ | ⟨q₀, q'⟩
        · exact List.nil_prefix
        · rw [← hp2']
          exact replaceAllAux_prefix_reflect rep hrep hrepP fuel rest pat' p₂'
            (by rw [hp2']; exact List.cons_ne_nil _ _)
            (fun d hd => hP d (List.mem_cons_of_mem _ hd)) hpre

/-- Core lemma: running one `ReplaceAll` with pattern `pat'` yields a
string with no occurrence of `pat`, provided either `pat = pat'` (the
pattern just replaced) or the input already had no occurrence of `pat`;
the replacement text must be non-empty and share no character with the
placeholder alphabet containing `pat`. -/
theorem replaceAllAux_not_infix (rep : List Char) (hrep : rep ≠ [])
    (hrepP : ∀ c ∈ rep, c ∉ placeholderChars) (pat : List Char)
    (hpat : pat ≠ []) (hpatP : ∀ c ∈ pat, c ∈ placeholderChars) :
    ∀ (fuel : Nat) (t pat' : List Char), pat' ≠ [] → t.length ≤ fuel →
      (pat = pat' ∨ ¬ pat <:+: t) →
      ¬ pat <:+: replaceAllAux pat' rep fuel t
  | 0, t, _, _, hlen, _ => by
    have ht : t = [] := List.length_eq_zero.mp (Nat.le_zero.mp hlen)
    subst ht
    intro h
    have h' : pat <:+: ([] : List Char) := h
    rw [List.infix_nil] at h'
    exact hpat h'
  | fuel + 1, [], _, _, _, _ => by
    intro h
    have h' : pat <:+: ([] : List Char) := h
    rw [List.infix_nil] at h'
    exact hpat h'
  | fuel + 1, c :: rest, pat', hpat', hlen, hdisj => by
    have hclean : ∀ ch ∈ rep, ch ∉ pat :=
      fun ch hch hmem => hrepP ch hch (hpatP ch hmem)
    simp only [replaceAllAux]
    split
    · next hifpos =>
      intro hinf
      have hX := infix_append_right_of_clean pat hpat rep _ hclean hinf
      have hlen' : ((c :: rest).drop pat'.length).length ≤ fuel := by
        rw [List.length_drop]
        have : pat'.length ≠ 0 := fun hh => hpat' (List.length_eq_zero.mp hh)
        simp only [List.length_cons] at hlen ⊢
        omega
      refine replaceAllAux_not_infix rep hrep hrepP pat hpat hpatP fuel _ pat'
        hpat' hlen' ?_ hX
      rcases hdisj with h | h
      · exact Or.inl h
      · refine Or.inr fun hh => h ?_
        exact hh.trans (List.drop_suffix _ _).isInfix
    · next hifneg =>
      intro hinf
      rw [List.infix_cons_iff] at hinf
      rcases hinf with hpre | hinf
      · rcases hp : pat with _ | ⟨p₀, pat₂⟩
        · exact hpat hp
        · rw [hp, List.cons_prefix_cons] at hpre
          obtain ⟨hc, hpre₂⟩ := hpre
          rcases hq : pat₂ with _ | ⟨q₀, q'⟩
          · have hpt : pat <+: c :: rest := by
              rw [hp, hq, List.cons_prefix_cons]
              exact ⟨hc, List.nil_prefix⟩
            rcases hdisj with h | h
            · exact hifneg (h ▸ hpt)
            · exact h hpt.isInfix
          · have hrefl : pat₂ <+: rest :=
              replaceAllAux_prefix_reflect rep hrep hrepP fuel rest
                pat' pat₂ (by rw [hq]; exact List.cons_ne_nil _ _)
                (fun d hd => hpatP d (by rw [hp]; exact List.mem_cons_of_mem _ hd))
                hpre₂
            have hpt : pat <+: c :: rest := by
              rw [hp, List.cons_prefix_cons]
              exact ⟨hc, hrefl⟩
            rcases hdisj with h | h
            · exact hifneg (h ▸ hpt)
            · exact h hpt.isInfix
      · have hlen' : rest.length ≤ fuel := by
          simp only [List.length_cons] at hlen
          omega
        refine replaceAllAux_not_infix rep hrep hrepP pat hpat hpatP fuel rest
          pat' hpat' hlen' ?_ hinf
        rcases hdisj with h | h
        · exact Or.inl h
        · exact Or.inr fun hh => h (hh.trans (List.suffix_cons c rest).isInfix)

/-- After `ReplaceAll s pat rep`, `pat` no longer occurs. -/
theorem replaceAllL_no_pat (t pat rep : List Char) (hrep : rep ≠ [])
    (hrepP : ∀ c ∈ rep, c ∉ placeholderChars) (hpat : pat ≠ [])
    (hpatP : ∀ c ∈ pat, c ∈ placeholderChars) :
    ¬ pat <:+: replaceAllL t pat rep :=
  replaceAllAux_not_infix rep hrep hrepP pat hpat hpatP t.length t pat hpat
    (Nat.le_refl _) (Or.inl rfl)

/-- `ReplaceAll` with another pattern cannot reintroduce `pat`. -/
theorem replaceAllL_preserves (t pat pat' rep : List Char) (hrep : rep ≠ [])
    (hrepP : ∀ c ∈ rep, c ∉ placeholderChars) (hpat : pat ≠ [])
    (hpatP : ∀ c ∈ pat, c ∈ placeholderChars) (hpat' : pat' ≠ [])
    (h : ¬ pat <:+: t) : ¬ pat <:+: replaceAllL t pat' rep :=
  replaceAllAux_not_infix rep hrep hrepP pat hpat hpatP t.length t pat' hpat'
    (Nat.le_refl _) (Or.inr h)

/-- For app names sharing no character with the placeholder names, the
four sequential replacements leave no occurrence of any placeholder. -/
theorem replaceTemplateName_no_placeholder (s appName : String)
    (h1 : appName.data ≠ [])
    (h2 : ∀ c ∈ appName.data, c ∉ placeholderChars) :
    ∀ q ∈ templateNames, ¬ (q.data <:+: (replaceTemplateName s appName).data) := by
  intro q hq
  have hmem : q = "my-app" ∨ q = "myapp" ∨ q = "template-app" ∨ q = "nx-app" := by
    simpa [templateNames] using hq
  show ¬ (q.data <:+: replaceAllL (replaceAllL (replaceAllL (replaceAllL s.data
    "my-app".data appName.data) "myapp".data appName.data)
    "template-app".data appName.data) "nx-app".data appName.data)
  rcases hmem with rfl | rfl | rfl | rfl
  · refine replaceAllL_preserves _ _ _ _ h1 h2 (by decide) (by decide) (by decide) ?_
    refine replaceAllL_preserves _ _ _ _ h1 h2 (by decide) (by decide) (by decide) ?_
    refine replaceAllL_preserves _ _ _ _ h1 h2 (by decide) (by decide) (by decide) ?_
    exact replaceAllL_no_pat _ _ _ h1 h2 (by decide) (by decide)
  · refine replaceAllL_preserves _ _ _ _ h1 h2 (by decide) (by decide) (by decide) ?_
    refine replaceAllL_preserves _ _ _ _ h1 h2 (by decide) (by decide) (by decide) ?_
    exact replaceAllL_no_pat _ _ _ h1 h2 (by decide) (by decide)
  · refine replaceAllL_preserves _ _ _ _ h1 h2 (by decide) (by decide) (by decide) ?_
    exact replaceAllL_no_pat _ _ _ h1 h2 (by decide) (by decide)
  · exact replaceAllL_no_pat _ _ _ h1 h2 (by decide) (by decide)

/-- The five path-bearing option fields updated by `updateOptionsMap`. -/
def pathFields : List String :=
  ["outputPath", "main", "polyfills", "tsConfig", "index"]

/-- Transform a string value; leave any other value unchanged (the Go
type assertion `.(string)` fails and the code skips the edit). -/
def strApply (f : String → String) : Json → Json
  | Json.str s => Json.str (f s)
  | v => v

/-- Mirror of Go `updateOptionsMap`: for each of the five path fields
present with a string value, replace template names with the app name. -/
def updateOptionsMap (options : List (String × Json)) (appName : String) :
    List (String × Json) :=
  options.map fun e =>
    if pathFields.contains e.1 then
      (e.1, strApply (fun s => replaceTemplateName s appName) e.2)
    else e

/-- Per-field action of Go `updateTargetConfigs` on one target object:
rewrite the `options` object and every per-configuration object. -/
def updateTargetFields (fields : List (String × Json)) (appName : String) :
    List (String × Json) :=
  fields.map fun e =>
    if e.1 == "options" then
      (e.1, objApply (fun o => updateOptionsMap o appName) e.2)
    else if e.1 == "configurations" then
      (e.1, objApply (fun cfgs => cfgs.map fun ce =>
        (ce.1, objApply (fun o => updateOptionsMap o appName) ce.2)) e.2)
    else e

/-- Mirror of Go `updateTargetConfigs`
(src/internal/utils/fetch-github-repo.go): every build target's
`options` map and every per-configuration options map get their path
fields rewritten. -/
def updateTargetConfigs (targets : List (String × Json)) (appName : String) :
    List (String × Json) :=
  targets.map fun t => (t.1, objApply (fun f => updateTargetFields f appName) t.2)

/-- Observer: the string values stored at path fields of one options
object. -/
def optionsStrings (fields : List (String × Json)) : List String :=
  fields.filterMap fun e =>
    if pathFields.contains e.1 then
      match e.2 with
      | Json.str s => some s
      | _ => none
    else none

/-- Observer: the path-field string values of one entry of a target
object (its `options` object, or all of its per-configuration objects). -/
def targetEntryStrings (e : String × Json) : List String :=
  if e.1 == "options" then
    match e.2 with
    | Json.obj o => optionsStrings o
    | _ => []
  else if e.1 == "configurations" then
    match e.2 with
    | Json.obj cfgs =>
      (cfgs.map fun ce =>
        match ce.2 with
        | Json.obj o => optionsStrings o
        | _ => []).flatten
    | _ => []
  else []

/-- Observer: all path-field string values of one target value. -/
def targetStrings (t : Json) : List String :=
  match t with
  | Json.obj fields => (fields.map targetEntryStrings).flatten
  | _ => []

/-- Observer: all path-field string values across every build target's
options map and per-configuration options maps. -/
def collectPathFieldValues (targets : List (String × Json)) : List String :=
  (targets.map fun t => targetStrings t.2).flatten

/-- Every path-field string value of an updated options object is the
image under `replaceTemplateName` of some string. -/
theorem mem_optionsStrings_update {v : String} {o : List (String × Json)}
    {appName : String} (h : v ∈ optionsStrings (updateOptionsMap o appName)) :
    ∃ s₀, v = replaceTemplateName s₀ appName := by
  rw [optionsStrings] at h
  obtain ⟨x, hx, hfx⟩ := List.mem_filterMap.mp h
  rw [updateOptionsMap] at hx
  obtain ⟨e, _, hge⟩ := List.mem_map.mp hx
  rcases e with ⟨a, b⟩
  by_cases hc : a ∈ pathFields
  · rw [if_pos (by simpa using hc)] at hge
    subst hge
    cases b with
    | str s =>
      simp only [strApply, hc, if_true, if_pos] at hfx
      rw [if_pos (by simpa using hc)] at hfx
      exact ⟨s, (Option.some.inj hfx).symm⟩
    | bool bb => simp [strApply, hc] at hfx
    | num nn => simp [strApply, hc] at hfx
    | null => simp [strApply, hc] at hfx
    | arr es => simp [strApply, hc] at hfx
    | obj fs => simp [strApply, hc] at hfx
  · rw [if_neg (by simpa using hc)] at hge
    subst hge
    simp [hc] at hfx

/-- Every path-field string value of an updated target entry is the image
under `replaceTemplateName` of some string. -/
theorem mem_targetEntryStrings_update {v : String} {e : String × Json}
    {appName : String}
    (h : v ∈ targetEntryStrings
      (if e.1 == "options" then
        (e.1, objApply (fun o => updateOptionsMap o appName) e.2)
      else if e.1 == "configurations" then
        (e.1, objApply (fun cfgs => cfgs.map fun ce =>
          (ce.1, objApply (fun o => updateOptionsMap o appName) ce.2)) e.2)
      else e)) :
    ∃ s₀, v = replaceTemplateName s₀ appName := by
  by_cases hopt : e.1 = "options"
  · rw [if_pos (by simpa using hopt)] at h
    rw [targetEntryStrings] at h
    rw [if_pos (by simpa using hopt)] at h
    rcases e with ⟨a, b⟩
    cases b with
    | obj o => exact mem_optionsStrings_update h
    | str s => simp [objApply] at h
    | bool bb => simp [objApply] at h
    | num nn => simp [objApply] at h
    | null => simp [objApply] at h
    | arr es => simp [objApply] at h
  · rw [if_neg (by simpa using hopt)] at h
    by_cases hcfg : e.1 = "configurations"
    · rw [if_pos (by simpa using hcfg)] at h
      rw [targetEntryStrings] at h
      rw [if_neg (by simpa using hopt), if_pos (by simpa using hcfg)] at h
      rcases e with ⟨a, b⟩
      cases b with
      | obj cfgs =>
        simp only [objApply] at h
        obtain ⟨L, hL, hv⟩ := List.mem_flatten.mp h
        rw [List.map_map] at hL
        obtain ⟨ce, _, hce⟩ := List.mem_map.mp hL
        rcases ce with ⟨ca, cb⟩
        cases cb with
        | obj o =>
          rw [← hce] at hv
          simp only [Function.comp_apply, objApply] at hv
          exact mem_optionsStrings_update hv
        | str s =>
          rw [← hce] at hv
          simp [Function.comp_apply, objApply] at hv
        | bool bb =>
          rw [← hce] at hv
          simp [Function.comp_apply, objApply] at hv
        | num nn =>
          rw [← hce] at hv
          simp [Function.comp_apply, objApply] at hv
        | null =>
          rw [← hce] at hv
          simp [Function.comp_apply, objApply] at hv
        | arr es =>
          rw [← hce] at hv
          simp [Function.comp_apply, objApply] at hv
      | str s => simp [objApply] at h
      | bool bb => simp [objApply] at h
      | num nn => simp [objApply] at h
      | null => simp [objApply] at h
      | arr es => simp [objApply] at h
    · rw [if_neg (by simpa using hcfg)] at h
      rw [targetEntryStrings] at h
      rw [if_neg (by simpa using hopt), if_neg (by simpa using hcfg)] at h
      simp at h

/-- Every path-field string value of the rewritten targets is the image
under `replaceTemplateName` of some string. -/
theorem mem_collect_update {v : String} {targets : List (String × Json)}
    {appName : String}
    (h : v ∈ collectPathFieldValues (updateTargetConfigs targets appName)) :
    ∃ s₀, v = replaceTemplateName s₀ appName := by
  rw [collectPathFieldValues, updateTargetConfigs, List.map_map] at h
  obtain ⟨L, hL, hv⟩ := List.mem_flatten.mp h
  obtain ⟨t, _, ht⟩ := List.mem_map.mp hL
  rw [← ht] at hv
  simp only [Function.comp_apply] at hv
  rcases t with ⟨ta, tb⟩
  cases tb with
  | obj fields =>
    simp only [objApply, targetStrings] at hv
    rw [updateTargetFields, List.map_map] at hv
    obtain ⟨L2, hL2, hv2⟩ := List.mem_flatten.mp hv
    obtain ⟨e, _, he⟩ := List.mem_map.mp hL2
    rw [← he] at hv2
    exact mem_targetEntryStrings_update hv2
  | str s => simp [objApply, targetStrings] at hv
  | bool bb => simp [objApply, targetStrings] at hv
  | num nn => simp [objApply, targetStrings] at hv
  | null => simp [objApply, targetStrings] at hv
  | arr es => simp [objApply, targetStrings] at hv

/-- Counterexample to claim C7: with app name `my-app` — itself one of
the placeholder names — the rewrite leaves the placeholder `my-app` in
the `outputPath` of the build target's options map. -/
theorem replace_template_name_counterexample :
    updateTargetConfigs
        [("build", Json.obj [("options",
          Json.obj [("outputPath", Json.str "dist/apps/my-app")])])] "my-app" =
      [("build", Json.obj [("options",
        Json.obj [("outputPath", Json.str "dist/apps/my-app")])])] ∧
    ("my-app".data <:+: "dist/apps/my-app".data) :=
  ⟨rfl, by decide⟩

/-- Claim C7 (amended): after the rewrite, no occurrence of any of the
four placeholder names remains in the path-field string values of any
build target's options map or per-configuration options map, PROVIDED
the app name is non-empty and shares no character with the placeholder
names; without such a restriction the sequential `ReplaceAll` calls are
not total (an app name such as `my-app` leaves placeholders behind). -/
theorem replace_template_total_amended
    (targets : List (String × Json)) (appName : String)
    (h1 : appName.data ≠ [])
    (h2 : ∀ c ∈ appName.data, c ∉ placeholderChars) :
    ∀ v ∈ collectPathFieldValues (updateTargetConfigs targets appName),
      ∀ q ∈ templateNames, ¬ (q.data <:+: v.data) := by
  intro v hv q hq
  obtain ⟨s₀, rfl⟩ := mem_collect_update hv
  exact replaceTemplateName_no_placeholder s₀ appName h1 h2 q hq

/-- Witness for the amended C7: with app name `ui` the placeholder in
`dist/apps/my-app` is rewritten to `dist/apps/ui`, and `my-app` no longer
occurs. -/
theorem replace_template_total_amended_witness :
    (collectPathFieldValues (updateTargetConfigs
        [("build", Json.obj [("options",
          Json.obj [("outputPath", Json.str "dist/apps/my-app")])])] "ui") =
      ["dist/apps/ui"]) ∧
    ¬ (("my-app" : String).data <:+: ("dist/apps/ui" : String).data) := by
  refine ⟨rfl, ?_⟩
  exact replace_template_total_amended
    [("build", Json.obj [("options",
      Json.obj [("outputPath", Json.str "dist/apps/my-app")])])] "ui"
    (by decide) (by decide) "dist/apps/ui" (by decide) "my-app" (by decide)

end NxScaffolder
